import Mathlib

/-!
Verification of the echemdb metadata-schema converters and schema tools.

This file gives a shallow embedding, in Lean 4, of the parts of the
mdstools package that the specification's claims are about:

  * mdstools/converters/flatten.py   (flatten, process_dict, process_list)
  * mdstools/converters/unflatten.py (unflatten, is_list_index, build_structure)
  * mdstools/schema/enricher.py      (SchemaEnricher: resolve_ref, follow_refs,
                                      get_field_metadata, enrich_row,
                                      enrich_flattened_data)
  * mdstools/schema/resolver.py      (SchemaResolver: resolve_ref, resolve_schema)

Python values that can appear in metadata trees and in JSON schemas are
modelled by the inductive type Value (ordered dicts, lists, scalars).
Python's None is modelled by the scalar null; a Python function that can
raise an exception or fail to terminate is modelled with an Option or
Except result, where none / error marks the abnormal outcome.  Recursion
that is not structurally terminating in the source (the mutually
recursive reference resolution and the unflatten tree recursion) is
modelled with an explicit fuel parameter; a result of none for every
fuel value proves that the Python recursion never returns normally.
-/

namespace MDS

/-- Scalars of the metadata model: Python str, int, bool and None.
The Python None object is the scalar null. -/
inductive Sc where
  | s (v : String)
  | i (n : Int)
  | b (v : Bool)
  | null
deriving DecidableEq, Repr

/-- Values of the metadata model: scalars, Python lists, and Python dicts
in insertion order (a dict is a list of key-value pairs with distinct keys;
keys are scalars, as in Python any hashable may key a dict). -/
inductive Value where
  | sc (x : Sc)
  | list (l : List Value)
  | obj (m : List (Sc × Value))
deriving Repr

mutual

/-- Structural equality of values (Python ==). -/
def Value.beq : Value → Value → Bool
  | .sc x, .sc y => x = y
  | .list l1, .list l2 => beqVList l1 l2
  | .obj m1, .obj m2 => beqVObj m1 m2
  | _, _ => false
termination_by structural a => a

/-- Elementwise equality of value lists. -/
def beqVList : List Value → List Value → Bool
  | [], [] => true
  | a :: as', b :: bs => Value.beq a b && beqVList as' bs
  | _, _ => false
termination_by structural a => a

/-- Entrywise equality of dict entry lists. -/
def beqVObj : List (Sc × Value) → List (Sc × Value) → Bool
  | [], [] => true
  | (k1, v1) :: t1, (k2, v2) :: t2 => k1 = k2 && Value.beq v1 v2 && beqVObj t1 t2
  | _, _ => false
termination_by structural a => a

end

instance : BEq Value := ⟨Value.beq⟩

mutual

theorem beqV_iff : ∀ a b, Value.beq a b = true ↔ a = b
  | .sc x, .sc y => by simp [Value.beq]
  | .sc _, .list _ => by simp [Value.beq]
  | .sc _, .obj _ => by simp [Value.beq]
  | .list _, .sc _ => by simp [Value.beq]
  | .list l1, .list l2 => by simp [Value.beq, beqVList_iff l1 l2]
  | .list _, .obj _ => by simp [Value.beq]
  | .obj _, .sc _ => by simp [Value.beq]
  | .obj _, .list _ => by simp [Value.beq]
  | .obj m1, .obj m2 => by simp [Value.beq, beqVObj_iff m1 m2]

theorem beqVList_iff : ∀ a b, beqVList a b = true ↔ a = b
  | [], [] => by simp [beqVList]
  | [], _ :: _ => by simp [beqVList]
  | _ :: _, [] => by simp [beqVList]
  | a :: as', b :: bs => by
    simp [beqVList, beqV_iff a b, beqVList_iff as' bs]

theorem beqVObj_iff : ∀ a b, beqVObj a b = true ↔ a = b
  | [], [] => by simp [beqVObj]
  | [], _ :: _ => by simp [beqVObj]
  | _ :: _, [] => by simp [beqVObj]
  | (k1, v1) :: t1, (k2, v2) :: t2 => by
    simp [beqVObj, beqV_iff v1 v2, beqVObj_iff t1 t2, and_assoc]

end

instance : DecidableEq Value := fun a b => decidable_of_iff _ (beqV_iff a b)

/-- Python str() of a scalar, as used by unflatten's str(number). -/
def Sc.str : Sc → String
  | .s v => v
  | .i n => toString n
  | .b true => "True"
  | .b false => "False"
  | .null => "None"

/-- Python truthiness of a scalar. -/
def Sc.truthy : Sc → Bool
  | .s v => v ≠ ""
  | .i n => n ≠ 0
  | .b v => v
  | .null => false

/-- Python truthiness of a value. -/
def Value.truthy : Value → Bool
  | .sc x => x.truthy
  | .list l => ¬ l.isEmpty
  | .obj m => ¬ m.isEmpty

/-- The Python None object as a Value. -/
def nullV : Value := .sc .null

/-- A string as a Value. -/
def strV (s : String) : Value := .sc (.s s)

/-- Assignment d[k] = v on an ordered dict: replaces in place if the key
exists, otherwise appends, exactly like a Python dict. -/
def upsert (k : Sc) (v : Value) : List (Sc × Value) → List (Sc × Value)
  | [] => [(k, v)]
  | (k', v') :: t => if k' = k then (k, v) :: t else (k', v') :: upsert k v t

/-- Dict lookup by a string key (Python compares the string to each key). -/
def objGetStr (m : List (Sc × Value)) (k : String) : Option Value :=
  (m.find? (fun kv => kv.1 = Sc.s k)).map (·.2)

/-- Lookup in a string-keyed cache dict (the schema_cache attributes). -/
def lookupStr (cache : List (String × Value)) (k : String) : Option Value :=
  (cache.find? (fun kv => kv.1 = k)).map (·.2)

/-! ### Splitting and joining strings, as Python str.split and str.join -/

/-- Splitting a character list on a separator character, with the
semantics of Python str.split(sep) for a one-character sep: the result is
never empty, and empty chunks are kept. -/
def splitChL (sep : Char) : List Char → List (List Char)
  | [] => [[]]
  | c :: cs =>
    match splitChL sep cs with
    | [] => [[]]
    | h :: t => if c = sep then [] :: h :: t else (c :: h) :: t

/-- Python s.split(sep) for a one-character separator. -/
def splitCh (sep : Char) (s : String) : List String :=
  (splitChL sep s.data).map (fun l => String.mk l)

/-- Joining character lists with a separator character (Python sep.join). -/
def joinChL (sep : Char) : List (List Char) → List Char
  | [] => []
  | [x] => x
  | x :: y :: t => x ++ sep :: joinChL sep (y :: t)

/-- Python sep.join(parts) for a one-character separator. -/
def joinCh (sep : Char) (l : List String) : String :=
  String.mk (joinChL sep (l.map String.data))

/-- Python str.lower() for the ASCII strings the header check sees. -/
def strLower (s : String) : String := String.mk (s.data.map Char.toLower)

/-- Address parts: number.split(".") in unflatten. -/
def addrParts (s : String) : List String := splitCh '.' s

/-- The parent address: ".".join(parts[:-1]). -/
def parentAddr (s : String) : String := joinCh '.' (addrParts s).dropLast

/-- The last address segment: parts[-1] (the parts list is never empty). -/
def lastSeg (s : String) : String := (addrParts s).getLastD ""

/-! ### The flattener (mdstools/converters/flatten.py)

A row produced by flatten is a triple (number, key, value); the number is
an address string, the key is the dict key the row came from (a scalar,
since Python dict keys need not be strings) and the value is a scalar or
the nested sentinel string. -/

/-- One flattened row: (number, key, value). -/
abbrev Row := String × Sc × Sc

/-- The nested-container sentinel cell. -/
def nestedSc : Sc := .s "<nested>"

/-- Item-marker letters: string.ascii_lowercase[j], defined for j < 26;
for j at 26 or beyond the source raises IndexError (see listsFit). -/
def asciiLetter (j : Nat) : Option Char :=
  "abcdefghijklmnopqrstuvwxyz".data.get? j

/-- Total letter function; it agrees with ascii_lowercase on every index
a run that does not raise can reach. -/
def letterOf (j : Nat) : Char := (asciiLetter j).getD '?'

/-- Truthiness of the optional parent_key argument (None or a scalar). -/
def pkTruthy : Option Sc → Bool
  | none => false
  | some k => k.truthy

mutual

/-- The rows contributed by one keyed value, at address cur under key k:
exactly the isinstance dispatch of the process_dict loop body (and of the
item-fields loop body, which is identical).  The dict case is the body of
process_dict (nested-marker row if the key is truthy, then its entries),
the list case the body of process_list (unconditional marker row, then
its items), the scalar case a single row. -/
def entry_rows : Value → String → Sc → List Row
  | .obj m, cur, k =>
    (if k.truthy then [(cur, k, nestedSc)] else []) ++ process_entries m cur 1
  | .list l, cur, k => ((cur, k, nestedSc) : Row) :: process_items l cur 0
  | .sc x, cur, k => [(cur, k, x)]
termination_by structural v => v

/-- The rows contributed by one list item at address listPfx: the
isinstance dispatch of the process_list loop body; item keys are always
empty. -/
def item_rows : Value → String → List Row
  | .obj m, listPfx =>
    ((listPfx, Sc.s "", nestedSc) : Row) :: process_item_fields m listPfx 1
  | .list l, listPfx =>
    ((listPfx, Sc.s "", nestedSc) : Row) :: process_items l listPfx 0
  | .sc x, listPfx => [(listPfx, Sc.s "", x)]
termination_by structural v => v

/-- The enumerate(d.items(), start=1) loop of flatten.process_dict. -/
def process_entries : List (Sc × Value) → String → Nat → List Row
  | [], _, _ => []
  | (k, v) :: t, pfx, i =>
    let cur := if pfx ≠ "" then pfx ++ "." ++ toString i else toString i
    entry_rows v cur k ++ process_entries t pfx (i + 1)
termination_by structural d => d

/-- The enumerate(lst) loop of flatten.process_list (j counts from 0). -/
def process_items : List Value → String → Nat → List Row
  | [], _, _ => []
  | item :: t, pfx, j =>
    let listPfx := pfx ++ "." ++ String.mk [letterOf j]
    item_rows item listPfx ++ process_items t pfx (j + 1)
termination_by structural d => d

/-- The enumerate(item.items(), start=1) loop inside the dict-item branch
of process_list; its isinstance dispatch is the same as the one of the
process_dict loop, so it reuses entry_rows. -/
def process_item_fields : List (Sc × Value) → String → Nat → List Row
  | [], _, _ => []
  | (field, val) :: t, listPfx, kIdx =>
    let fieldPfx := listPfx ++ "." ++ toString kIdx
    entry_rows val fieldPfx field ++ process_item_fields t listPfx (kIdx + 1)
termination_by structural d => d

end

/-- Embedding of flatten.process_dict: emits a nested-marker row when
parent_key is truthy, then the rows of each entry in order. -/
def process_dict (d : List (Sc × Value)) (pfx : String) (parentKey : Option Sc) :
    List Row :=
  (if pkTruthy parentKey then [(pfx, parentKey.getD .null, nestedSc)] else []) ++
    process_entries d pfx 1

/-- Embedding of flatten.process_list: always emits the parent
nested-marker row, then each item with a letter suffix. -/
def process_list (lst : List Value) (pfx : String) (parentKey : Sc) :
    List Row :=
  ((pfx, parentKey, nestedSc) : Row) :: process_items lst pfx 0

mutual

/-- Every list in the tree fits the letter alphabet (at most 26 items);
when this fails, the enumerate loop of process_list raises IndexError at
item 27 and flatten returns nothing to its caller. -/
def listsFit : Value → Bool
  | .sc _ => true
  | .list l => l.length ≤ 26 && listsFitL l
  | .obj m => listsFitO m
termination_by structural a => a

/-- listsFit over the items of a list. -/
def listsFitL : List Value → Bool
  | [] => true
  | v :: t => listsFit v && listsFitL t
termination_by structural a => a

/-- listsFit over the values of a dict. -/
def listsFitO : List (Sc × Value) → Bool
  | [] => true
  | (_, v) :: t => listsFit v && listsFitO t
termination_by structural a => a

end

/-- Embedding of flatten(d, prefix, parent_key): dispatches on the shape
of d; anything that is neither a dict nor a list yields no rows.  The
result is none exactly when some list in the tree is longer than the
letter alphabet, in which case the Python call raises IndexError and its
caller receives no rows. -/
def flattenFull (d : Value) (pfx : String) (parentKey : Option Sc) :
    Option (List Row) :=
  if listsFit d then
    some (match d with
      | .obj m => process_dict m pfx parentKey
      | .list l =>
        process_list l pfx (match parentKey with
          | some k => if k.truthy then k else .s ""
          | none => .s "")
      | .sc _ => [])
  else none

/-- flatten with its default arguments. -/
def flatten (d : Value) : Option (List Row) := flattenFull d "" none

/-- A typed row as the three-cell list it is in the Python sources. -/
def rowCells (r : Row) : List Sc := [Sc.s r.1, r.2.1, r.2.2]

/-! ### The unflattener (mdstools/converters/unflatten.py) -/

/-- The error raised by the row-unpacking loop of unflatten: a row whose
cell list does not have exactly 3 elements makes the Python tuple
unpacking raise ValueError. -/
inductive UErr where
  | badRow (r : List Sc)
deriving DecidableEq, Repr

/-- One node of the intermediate tree: the key and value cells of the row
that produced it (children are recovered from the address map). -/
structure UNode where
  key : Sc
  value : Sc
deriving DecidableEq, Repr

/-- Detection of the textual header row: the first row has at least two
cells and the lowercased str() of its cells contains both "number" and
"key". -/
def headerLike (r : List Sc) : Bool :=
  2 ≤ r.length ∧
    (r.map (fun c => strLower c.str)).contains "number" ∧
    (r.map (fun c => strLower c.str)).contains "key"

/-- Dropping the optional leading header row (rows = rows[1:]). -/
def stripHeader (rows : List (List Sc)) : List (List Sc) :=
  match rows with
  | [] => []
  | r :: t => if headerLike r then t else r :: t

/-- Dict assignment for the address-keyed tree: replaces in place when
the address exists, else appends, like a Python dict assignment. -/
def treeInsert (n : String) (node : UNode) : List (String × UNode) →
    List (String × UNode)
  | [] => [(n, node)]
  | (n', node') :: t => if n' = n then (n, node) :: t
      else (n', node') :: treeInsert n node t

/-- The tree-building loop, processing rows in order left to right with
the tree built so far: for number, key, value in rows, assign
tree[str(number)]; a row with other than three cells fails the tuple
unpacking at that row. -/
def buildTreeGo : List (List Sc) → List (String × UNode) →
    Except UErr (List (String × UNode))
  | [], acc => .ok acc
  | r :: t, acc =>
    match r with
    | [n, k, v] => buildTreeGo t (treeInsert n.str ⟨k, v⟩ acc)
    | _ => .error (.badRow r)

/-- The tree built from the rows, in row order. -/
def buildTree (rows : List (List Sc)) : Except UErr (List (String × UNode)) :=
  buildTreeGo rows []

/-- Lookup in the tree by address. -/
def treeGet (tree : List (String × UNode)) (n : String) : Option UNode :=
  (tree.find? (fun e => e.1 = n)).map (·.2)

/-- The children of an address, in tree order: addresses with more than
one part whose parent string is the given address (the linking loop). -/
def childrenOf (tree : List (String × UNode)) (addr : String) : List String :=
  (tree.map (·.1)).filter
    (fun n => 1 < (addrParts n).length ∧ parentAddr n = addr)

/-- The root addresses, in tree order: one part, or parent not present. -/
def rootsOf (tree : List (String × UNode)) : List String :=
  (tree.map (·.1)).filter
    (fun n => (addrParts n).length = 1 ∨ (treeGet tree (parentAddr n)).isNone)

/-- Embedding of unflatten.is_list_index: an item index in the i-n form
(i followed by one or more digits). -/
def is_list_index (s : String) : Bool :=
  match s.data with
  | c :: rest => 2 ≤ s.length ∧ c = 'i' ∧ rest.all Char.isDigit ∧ rest ≠ []
  | [] => false

/-- Lexicographic code-point comparison of character lists, the order
Python uses to compare strings. -/
def charsLt : List Char → List Char → Bool
  | _, [] => false
  | [], _ :: _ => true
  | a :: as', b :: bs =>
    if a.toNat < b.toNat then true
    else if b.toNat < a.toNat then false
    else charsLt as' bs

/-- Python string comparison a < b. -/
def strLt (a b : String) : Bool := charsLt a.data b.data

/-- Stable insertion of an element into a list sorted by a string key,
before the first entry with a strictly greater key (Python sorted is a
stable ascending sort). -/
def insertByKey (key : α → String) (a : α) : List α → List α
  | [] => [a]
  | b :: t =>
    if strLt (key a) (key b) then a :: b :: t else b :: insertByKey key a t

/-- Python sorted(l, key=key) with string keys: a stable ascending sort. -/
def pySorted (key : α → String) (l : List α) : List α :=
  l.foldl (fun acc x => insertByKey key x acc) []

/-- The dict-branch loop of build_structure over the already-computed
child keys and child results: a truthy child key is assigned into the
result dict; a falsy one replaces the whole result with the child's
mapping when that mapping is a dict, else leaves the result unchanged. -/
def buildDictFold : List (Sc × Value) → List (Sc × Value) → List (Sc × Value)
  | [], acc => acc
  | (k, r) :: t, acc =>
    buildDictFold t
      (if k.truthy then upsert k r acc
       else match r with
         | .obj m => m
         | _ => acc)

/-- Embedding of unflatten.build_structure, with fuel for the recursion
into children (the Python recursion always terminates because children
have strictly longer addresses; any sufficiently large fuel computes the
same result).  The dict-branch loop is factored into the pure
buildDictFold over the child results, computed in the same order. -/
def build_structure (tree : List (String × UNode)) :
    Nat → String → Option Value
  | 0, _ => none
  | fuel + 1, number => do
    let node ← treeGet tree number
    if (childrenOf tree number).isEmpty then
      pure (.sc node.value)
    else
      if ((pySorted lastSeg (childrenOf tree number)).map lastSeg).all
          is_list_index then do
        let items ← (pySorted lastSeg (childrenOf tree number)).mapM
          (build_structure tree fuel)
        pure (.list items)
      else do
        let results ← (pySorted lastSeg (childrenOf tree number)).mapM
          (fun cn => do
            let childNode ← treeGet tree cn
            let childResult ← build_structure tree fuel cn
            pure (childNode.key, childResult))
        pure (.obj (buildDictFold results []))

/-- Fuel that is always sufficient for build_structure on this tree: the
recursion only ever descends to tree entries and never revisits one. -/
def treeFuel (tree : List (String × UNode)) : Nat := tree.length + 1

/-- The root loop of unflatten: each root with a truthy key contributes
one entry to the result dict. -/
def buildRoots (tree : List (String × UNode)) :
    List String → List (Sc × Value) → Option (List (Sc × Value))
  | [], acc => some acc
  | root :: t, acc => do
    let node ← treeGet tree root
    if node.key.truthy then do
      let v ← build_structure tree (treeFuel tree) root
      buildRoots tree t (upsert node.key v acc)
    else
      buildRoots tree t acc

/-- Embedding of unflatten(rows).  The result is an Except: a malformed
row aborts the whole conversion with no partial result.  The only
other abnormal outcome, fuel exhaustion, cannot occur (children always
have strictly more address parts than their parent); it is mapped to the
same error type to keep the function total. -/
def unflatten (rows : List (List Sc)) : Except UErr Value :=
  if rows.isEmpty then .ok (.obj [])
  else
    let rows' := stripHeader rows
    if rows'.isEmpty then .ok (.obj [])
    else do
      let tree ← buildTree rows'
      match buildRoots tree (rootsOf tree) [] with
      | some m => .ok (.obj m)
      | none => .error (.badRow [])

instance : DecidableEq (Except UErr Value) := fun a b =>
  match a, b with
  | .ok x, .ok y => decidable_of_iff (x = y) (by simp)
  | .error x, .error y => decidable_of_iff (x = y) (by simp)
  | .ok _, .error _ => isFalse (by intro h; cases h)
  | .error _, .ok _ => isFalse (by intro h; cases h)

/-! ### Helper lemmas about the unflatten pipeline -/

/-- A row whose cell list does not have exactly three cells makes the
tree-building loop fail at that row, whatever was built before it. -/
theorem buildTreeGo_cons_bad (r : List Sc) (t : List (List Sc))
    (acc : List (String × UNode)) (h : r.length ≠ 3) :
    buildTreeGo (r :: t) acc = .error (.badRow r) := by
  match r with
  | [] => rfl
  | [_] => rfl
  | [_, _] => rfl
  | [_, _, _] => exact absurd rfl h
  | _ :: _ :: _ :: _ :: _ => rfl

/-- If some row in the list has other than three cells, the tree-building
loop fails with the unpacking error for such a row. -/
theorem buildTreeGo_error_of_bad : ∀ rows : List (List Sc),
    (rows.any fun r => r.length ≠ 3) = true →
    ∃ bad, bad ∈ rows ∧ bad.length ≠ 3 ∧
      ∀ acc, buildTreeGo rows acc = .error (.badRow bad) := by
  intro rows h
  induction rows with
  | nil => simp at h
  | cons r t ih =>
    by_cases h3 : r.length = 3
    · have hr : ∃ n k v, r = [n, k, v] := by
        match r, h3 with
        | [n, k, v], _ => exact ⟨n, k, v, rfl⟩
      obtain ⟨n, k, v, rfl⟩ := hr
      have ht : (t.any fun r => r.length ≠ 3) = true := by
        simpa [h3] using h
      obtain ⟨bad, hmem, hlen, herr⟩ := ih ht
      exact ⟨bad, by simp [hmem], hlen, fun acc => herr _⟩
    · exact ⟨r, by simp, h3, fun acc => buildTreeGo_cons_bad r t acc h3⟩

/-- Stable insertion produces a permutation of consing the element. -/
theorem insertByKey_perm (key : α → String) (a : α) :
    ∀ l : List α, (insertByKey key a l).Perm (a :: l)
  | [] => by simp [insertByKey]
  | b :: t => by
    rw [insertByKey]
    by_cases hk : strLt (key a) (key b) = true
    · rw [if_pos hk]
    · rw [if_neg hk]
      exact ((insertByKey_perm key a t).cons b).trans (List.Perm.swap a b t)

/-- Python sorted returns a permutation of its input. -/
theorem pySorted_perm (key : α → String) (l : List α) :
    (pySorted key l).Perm l := by
  suffices h : ∀ acc : List α,
      (l.foldl (fun acc x => insertByKey key x acc) acc).Perm (acc ++ l) by
    simpa using h []
  induction l with
  | nil => intro acc; simp
  | cons x t ih =>
    intro acc
    simp only [List.foldl_cons]
    have h1 := ih (insertByKey key x acc)
    have h2 : ((insertByKey key x acc) ++ t).Perm (acc ++ x :: t) :=
      ((insertByKey_perm key x acc).append_right t).trans List.perm_middle.symm
    exact h1.trans h2

/-- The all-item-markers test over the sorted children equals the
universally quantified statement over the children. -/
theorem sorted_suffix_all_iff (ch : List String) :
    (((pySorted lastSeg ch).map lastSeg).all is_list_index = true) ↔
      ∀ n ∈ ch, is_list_index (lastSeg n) = true := by
  rw [List.all_eq_true]
  constructor
  · intro hall n hn
    exact hall _ (List.mem_map_of_mem _ (((pySorted_perm lastSeg ch).mem_iff).mpr hn))
  · intro hall x hx
    obtain ⟨n, hn, rfl⟩ := List.mem_map.mp hx
    exact hall n (((pySorted_perm lastSeg ch).mem_iff).mp hn)

/-! ### Concrete example values used by the claims -/

/-- The round-trip example from the unflatten doctest:
a curation dict whose process key holds a one-element list of a dict. -/
def exC1 : Value :=
  .obj [(.s "curation", .obj [(.s "process",
    .list [.obj [(.s "role", .sc (.s "curator")), (.s "name", .sc (.s "Jane"))]])])]

/-- What the code actually reconstructs for exC1: the one-element list
collapses into its member dict. -/
def exC1wrong : Value :=
  .obj [(.s "curation", .obj [(.s "process",
    .obj [(.s "role", .sc (.s "curator")), (.s "name", .sc (.s "Jane"))])])]

/-- A nested object with ten keys k1 .. k10. -/
def ex10 : Value :=
  .obj [(.s "p", .obj ((List.range 10).map
    (fun j => (Sc.s ("k" ++ toString (j + 1)), Value.sc (Sc.i (j + 1))))))]

/-- The reconstruction of ex10: keys in lexicographic suffix order
1, 10, 2, 3, ..., 9 instead of insertion order. -/
def ex10wrong : Value :=
  .obj [(.s "p", .obj ((([1] ++ [10] ++ (List.range 8).map (· + 2)).map
    (fun j => (Sc.s ("k" ++ toString j), Value.sc (Sc.i (j : Int)))))))]

/-- A textual header row. -/
def hdrRow : List Sc := [.s "number", .s "key", .s "value"]

/-- The rows of the empty-key fallback scenario: a dict-classified node
whose first child has key x and whose second child has an empty key and
is itself a dict. -/
def rowsC4 (a b : Sc) : List (List Sc) :=
  [[Sc.s "1", Sc.s "root", nestedSc],
   [Sc.s "1.1", Sc.s "x", a],
   [Sc.s "1.2", Sc.s "", nestedSc],
   [Sc.s "1.2.1", Sc.s "y", b]]

/-- The rowsC4 configuration extended with a later truthy-keyed sibling
after the empty-key child. -/
def rowsC4b (a b c : Sc) : List (List Sc) :=
  [[Sc.s "1", Sc.s "root", nestedSc],
   [Sc.s "1.1", Sc.s "x", a],
   [Sc.s "1.2", Sc.s "", nestedSc],
   [Sc.s "1.2.1", Sc.s "y", b],
   [Sc.s "1.3", Sc.s "z", c]]

/-- A five-cell row as an enriched row would provide. -/
def fiveCellRow : List Sc :=
  [.s "1", .s "name", .s "test", .s "an example", .s "a description"]

/-! ### More helper lemmas -/

/-- Stripping a leading header row makes unflatten process the remaining
rows directly; this agrees with unflatten of the remainder whenever the
remainder does not itself start with a header-like row. -/
theorem unflatten_strip_header :
    ∀ (h : List Sc) (rest : List (List Sc)), headerLike h = true →
    (∀ r, rest.head? = some r → headerLike r = false) →
    unflatten (h :: rest) = unflatten rest := by
  intro h rest hh hr
  cases rest with
  | nil => simp [unflatten, stripHeader, hh]
  | cons r t =>
    have hrf : headerLike r = false := hr r rfl
    simp [unflatten, stripHeader, hh, hrf]

/-- Characterization of monadic Option bind returning some. -/
theorem obind_eq_some {x : Option α} {f : α → Option β} {b : β} :
    (x >>= f) = some b ↔ ∃ a, x = some a ∧ f a = some b := by
  cases x <;> simp

/-- A node with children builds to a List exactly when every child's last
address segment is an item marker; otherwise it builds to an Object. -/
theorem build_structure_list_iff (tree : List (String × UNode))
    (fuel : Nat) (addr : String) (v : Value)
    (hch : childrenOf tree addr ≠ [])
    (hb : build_structure tree (fuel + 1) addr = some v) :
    ((∃ l, v = .list l) ↔ ∀ n ∈ childrenOf tree addr,
        is_list_index (lastSeg n) = true) ∧
    ((¬ ∀ n ∈ childrenOf tree addr, is_list_index (lastSeg n) = true) →
        ∃ m, v = .obj m) := by
  rw [build_structure] at hb
  rw [obind_eq_some] at hb
  obtain ⟨node, htg, hb⟩ := hb
  rw [if_neg (by simp [List.isEmpty_iff, hch])] at hb
  by_cases hall : (((pySorted lastSeg (childrenOf tree addr)).map lastSeg).all
      is_list_index) = true
  · rw [if_pos hall] at hb
    rw [obind_eq_some] at hb
    obtain ⟨items, hm, hb⟩ := hb
    have hv : Value.list items = v := by simpa using hb
    subst hv
    have hforall := (sorted_suffix_all_iff (childrenOf tree addr)).mp hall
    exact ⟨⟨fun _ => hforall, fun _ => ⟨items, rfl⟩⟩,
      fun hn => absurd hforall hn⟩
  · rw [if_neg hall] at hb
    rw [obind_eq_some] at hb
    obtain ⟨results, hm, hb⟩ := hb
    have hv : Value.obj (buildDictFold results []) = v := by simpa using hb
    subst hv
    have hnall : ¬ ∀ n ∈ childrenOf tree addr,
        is_list_index (lastSeg n) = true :=
      fun hf => hall ((sorted_suffix_all_iff (childrenOf tree addr)).mpr hf)
    refine ⟨⟨fun hex => ?_, fun hf => absurd hf hnall⟩,
      fun _ => ⟨buildDictFold results [], rfl⟩⟩
    obtain ⟨l, hl⟩ := hex
    cases hl

/-! ### A general round-trip theorem for the object/scalar fragment

The rest of this development proves that flatten followed by unflatten is
the identity on every tree built from dicts and scalars in which each
nested dict is nonempty, has at most nine entries (so ordinal address
segments stay single digit), and has distinct truthy keys — provided no
produced first row is mistaken for a header.  The spec-side address
combinatorics is carried out over lists of ordinal indices (paths);
joinA maps a path to the dotted address string flatten builds. -/

/-- A single-digit ordinal index, 1 through 9. -/
def sdigB (j : Nat) : Bool := decide (1 ≤ j) && decide (j ≤ 9)

/-- The dotted address of an index path. -/
def joinA (p : List Nat) : String := joinCh '.' (p.map (fun j => toString j))

/-- Pairwise distinctness of a key list. -/
def keysDistinct : List Sc → Bool
  | [] => true
  | k :: t => !(t.contains k) && keysDistinct t

mutual

/-- The fragment of values the round-trip theorem covers: scalars and
dicts of at most nine entries with distinct truthy keys; no lists. -/
def goodVal : Value → Bool
  | .sc _ => true
  | .list _ => false
  | .obj m => decide (1 ≤ m.length) && decide (m.length ≤ 9) &&
      keysDistinct (m.map Prod.fst) && goodEntries m
termination_by structural v => v

/-- goodVal over the entries of a dict; every key is truthy. -/
def goodEntries : List (Sc × Value) → Bool
  | [] => true
  | (k, v) :: t => k.truthy && goodVal v && goodEntries t
termination_by structural m => m

end

/-- The fragment condition for the top-level dict: at most nine entries
with distinct truthy keys, each value in the fragment.  The top level may
be empty (an empty dict round-trips to the empty dict). -/
def goodTop (m : List (Sc × Value)) : Bool :=
  decide (m.length ≤ 9) && keysDistinct (m.map Prod.fst) && goodEntries m

mutual

/-- The rows of one keyed fragment value, with index-path addresses: the
path-level image of entry_rows. -/
def rowsPV : Value → List Nat → Sc → List (List Nat × Sc × Sc)
  | .obj m, p, k =>
    (if k.truthy then [(p, k, nestedSc)] else []) ++ rowsPE m p 1
  | .list _, p, k => [(p, k, nestedSc)]
  | .sc x, p, k => [(p, k, x)]
termination_by structural v => v

/-- The path-level image of process_entries. -/
def rowsPE : List (Sc × Value) → List Nat → Nat → List (List Nat × Sc × Sc)
  | [], _, _ => []
  | (k, v) :: t, p, i => rowsPV v (p ++ [i]) k ++ rowsPE t p (i + 1)
termination_by structural m => m

end

mutual

/-- Navigation to the entry list of the sub-dict at a path inside a
fragment value (none when the path leaves the tree or ends on a scalar). -/
def entAtV : Value → List Nat → Option (List (Sc × Value))
  | .obj m, q =>
    match q with
    | [] => some m
    | j :: p => entAtE m 1 (j :: p)
  | .sc _, _ => none
  | .list _, _ => none
termination_by structural v => v

/-- Navigation through an entry list enumerated from index i. -/
def entAtE : List (Sc × Value) → Nat → List Nat → Option (List (Sc × Value))
  | [], _, _ => none
  | e :: t, i, q =>
    match q with
    | [] => none
    | j :: p => if j = i then entAtV e.2 p else entAtE t (i + 1) (j :: p)
termination_by structural m => m

end

mutual

/-- Recursion depth of a fragment value, a fuel bound for
build_structure. -/
def heightV : Value → Nat
  | .sc _ => 1
  | .list _ => 1
  | .obj m => heightE m + 1
termination_by structural v => v

/-- Maximal height over the values of an entry list. -/
def heightE : List (Sc × Value) → Nat
  | [] => 0
  | e :: t => max (heightV e.2) (heightE t)
termination_by structural m => m

end

/-! #### Digit segments -/

theorem sdigB_iff {j : Nat} : sdigB j = true ↔ 1 ≤ j ∧ j ≤ 9 := by
  simp [sdigB]

/-- The decimal form of a single-digit ordinal is one dot-free nonempty
character. -/
theorem sdig_data {j : Nat} (h : sdigB j = true) :
    (toString j).data ≠ [] ∧ '.' ∉ (toString j).data := by
  obtain ⟨h1, h2⟩ := sdigB_iff.mp h
  interval_cases j <;> decide

/-- String comparison of single-digit ordinals is numeric comparison. -/
theorem strLt_toString {a b : Nat} (ha : sdigB a = true)
    (hb : sdigB b = true) (hab : a < b) :
    strLt (toString a) (toString b) = true := by
  obtain ⟨ha1, ha2⟩ := sdigB_iff.mp ha
  obtain ⟨hb1, hb2⟩ := sdigB_iff.mp hb
  interval_cases a <;> interval_cases b <;> simp_all <;> decide

/-- str() is injective on single-digit ordinals. -/
theorem toString_inj_sdig {a b : Nat} (ha : sdigB a = true)
    (hb : sdigB b = true) (h : toString a = toString b) : a = b := by
  obtain ⟨ha1, ha2⟩ := sdigB_iff.mp ha
  obtain ⟨hb1, hb2⟩ := sdigB_iff.mp hb
  interval_cases a <;> interval_cases b <;> simp_all <;> revert h <;> decide

/-- No single-digit ordinal is an i-n item marker. -/
theorem is_list_index_toString {j : Nat} (h : sdigB j = true) :
    is_list_index (toString j) = false := by
  obtain ⟨h1, h2⟩ := sdigB_iff.mp h
  interval_cases j <;> decide

/-! #### Splitting a join recovers dot-free segments -/

theorem strMk_data (s : String) : String.mk s.data = s := by
  cases s
  rfl

/-- Splitting never yields the empty chunk list. -/
theorem splitChL_ne_nil (sep : Char) (cs : List Char) :
    splitChL sep cs ≠ [] := by
  cases cs with
  | nil => simp [splitChL]
  | cons c cs =>
    rw [splitChL]
    cases h : splitChL sep cs with
    | nil => simp
    | cons h1 t1 => by_cases hc : c = sep <;> simp [hc]

/-- Splitting a separator-free character list is the identity chunk. -/
theorem splitChL_no_sep (sep : Char) (cs : List Char)
    (h : ∀ c ∈ cs, c ≠ sep) : splitChL sep cs = [cs] := by
  induction cs with
  | nil => rfl
  | cons c cs ih =>
    have hc : c ≠ sep := h c (by simp)
    rw [splitChL, ih (fun x hx => h x (by simp [hx]))]
    simp [hc]

/-- Splitting past a separator that follows a separator-free chunk. -/
theorem splitChL_sep_append (sep : Char) (xs rest : List Char)
    (h : ∀ c ∈ xs, c ≠ sep) :
    splitChL sep (xs ++ sep :: rest) = xs :: splitChL sep rest := by
  induction xs with
  | nil =>
    rw [List.nil_append, splitChL]
    match hs : splitChL sep rest, splitChL_ne_nil sep rest with
    | h1 :: t1, _ => simp
  | cons c xs ih =>
    have hc : c ≠ sep := h c (by simp)
    rw [List.cons_append, splitChL, ih (fun x hx => h x (by simp [hx]))]
    simp [hc]

/-- Joining, then adding one more chunk. -/
theorem joinChL_snoc (sep : Char) (l : List (List Char)) (x : List Char)
    (hl : l ≠ []) : joinChL sep (l ++ [x]) = joinChL sep l ++ sep :: x := by
  induction l with
  | nil => exact absurd rfl hl
  | cons a l ih =>
    cases l with
    | nil => rfl
    | cons b l' =>
      have h1 : joinChL sep (a :: b :: (l' ++ [x])) =
          a ++ sep :: joinChL sep (b :: (l' ++ [x])) := rfl
      have h2 : joinChL sep (a :: b :: l') =
          a ++ sep :: joinChL sep (b :: l') := rfl
      have ih' := ih (by simp)
      rw [List.cons_append] at ih'
      rw [show (a :: b :: l') ++ [x] = a :: b :: (l' ++ [x]) from rfl, h1, h2,
        ih']
      simp

/-- Splitting a join of dot-free segments recovers the segments. -/
theorem addrParts_joinCh (l : List String) (hne : l ≠ [])
    (h : ∀ s ∈ l, '.' ∉ s.data) : addrParts (joinCh '.' l) = l := by
  induction l with
  | nil => exact absurd rfl hne
  | cons a l ih =>
    cases l with
    | nil =>
      show (splitChL '.' (joinChL '.' [a.data])).map _ = _
      rw [show joinChL '.' [a.data] = a.data from rfl]
      rw [splitChL_no_sep '.' a.data
        (fun c hc hcEq => h a (by simp) (hcEq ▸ hc))]
      simp [strMk_data]
    | cons b l' =>
      show (splitChL '.' (joinChL '.' ((a :: b :: l').map String.data))).map _ = _
      rw [show (a :: b :: l').map String.data =
        a.data :: (b :: l').map String.data from rfl]
      rw [show joinChL '.' (a.data :: (b :: l').map String.data) =
        a.data ++ '.' :: joinChL '.' ((b :: l').map String.data) from rfl]
      rw [splitChL_sep_append '.' a.data _
        (fun c hc hcEq => h a (by simp) (hcEq ▸ hc))]
      have ihr := ih (by simp) (fun s hs => h s (by simp [hs]))
      rw [List.map_cons, strMk_data]
      rw [show (splitChL '.' (joinChL '.' ((b :: l').map String.data))).map
          (fun cl => String.mk cl) = addrParts (joinCh '.' (b :: l')) from rfl]
      rw [ihr]

/-! #### Address algebra over index paths -/

theorem joinA_nil : joinA [] = "" := rfl

theorem joinA_singleton (j : Nat) : joinA [j] = toString j := by
  show String.mk (toString j).data = _
  exact strMk_data _

/-- Extending a nonempty address by one more ordinal segment. -/
theorem joinA_snoc (p : List Nat) (j : Nat) (hp : p ≠ []) :
    joinA (p ++ [j]) = joinA p ++ "." ++ toString j := by
  rw [← strMk_data (joinA p ++ "." ++ toString j)]
  show String.mk (joinChL '.' (((p ++ [j]).map (fun i => toString i)).map
    String.data)) = _
  apply congrArg String.mk
  rw [List.map_append, List.map_append]
  rw [show ((([j] : List Nat).map (fun i => toString i)).map String.data) =
    [(toString j).data] from rfl]
  rw [joinChL_snoc '.' _ _ (by simp [hp])]
  simp [String.data_append]
  rw [← List.map_map]
  rfl

/-- An address path of single-digit segments splits back to its
segments. -/
theorem addrParts_joinA (p : List Nat) (hp : p ≠ [])
    (hd : ∀ x ∈ p, sdigB x = true) :
    addrParts (joinA p) = p.map (fun i => toString i) := by
  apply addrParts_joinCh
  · simp [hp]
  · intro s hs
    obtain ⟨x, hx, rfl⟩ := List.mem_map.mp hs
    exact (sdig_data (hd x hx)).2

/-- A nonempty single-digit address is never the empty string. -/
theorem joinA_ne_empty (p : List Nat) (hp : p ≠ [])
    (hd : ∀ x ∈ p, sdigB x = true) : joinA p ≠ "" := by
  intro h
  have hparts := addrParts_joinA p hp hd
  rw [h] at hparts
  have h2 : addrParts "" = [""] := rfl
  rw [h2] at hparts
  cases p with
  | nil => exact hp rfl
  | cons x p' =>
    cases p' with
    | nil =>
      have hx : toString x = "" := by simpa using hparts.symm
      exact (sdig_data (hd x (by simp))).1 (by simp [hx])
    | cons y p'' => simp at hparts

/-- parentAddr chops the last segment of a single-digit address. -/
theorem parentAddr_joinA (p : List Nat) (hp : p ≠ [])
    (hd : ∀ x ∈ p, sdigB x = true) :
    parentAddr (joinA p) = joinA p.dropLast := by
  show joinCh '.' (addrParts (joinA p)).dropLast = _
  rw [addrParts_joinA p hp hd, ← List.map_dropLast]
  rfl

/-- lastSeg reads the last segment of a single-digit address. -/
theorem lastSeg_joinA (p : List Nat) (j : Nat)
    (hd : ∀ x ∈ p ++ [j], sdigB x = true) :
    lastSeg (joinA (p ++ [j])) = toString j := by
  show (addrParts (joinA (p ++ [j]))).getLastD "" = _
  rw [addrParts_joinA _ (by simp) hd, List.map_append]
  simp

/-- The number of parts of a single-digit address. -/
theorem addrParts_length_joinA (p : List Nat) (hp : p ≠ [])
    (hd : ∀ x ∈ p, sdigB x = true) :
    (addrParts (joinA p)).length = p.length := by
  rw [addrParts_joinA p hp hd, List.length_map]

/-- str() is injective on lists of single-digit ordinals. -/
theorem map_toString_inj (p q : List Nat) (hdp : ∀ x ∈ p, sdigB x = true)
    (hdq : ∀ x ∈ q, sdigB x = true)
    (h : p.map (fun i => toString i) = q.map (fun i => toString i)) :
    p = q := by
  induction p generalizing q with
  | nil =>
    cases q with
    | nil => rfl
    | cons y q' => simp at h
  | cons x p' ih =>
    cases q with
    | nil => simp at h
    | cons y q' =>
      simp only [List.map_cons, List.cons.injEq] at h
      have hxy := toString_inj_sdig (hdp x (by simp)) (hdq y (by simp)) h.1
      rw [hxy, ih q' (fun a ha => hdp a (by simp [ha]))
        (fun a ha => hdq a (by simp [ha])) h.2]

/-- joinA is injective on single-digit paths. -/
theorem joinA_inj (p q : List Nat) (hdp : ∀ x ∈ p, sdigB x = true)
    (hdq : ∀ x ∈ q, sdigB x = true) (h : joinA p = joinA q) : p = q := by
  match p, q with
  | [], [] => rfl
  | [], y :: q' =>
    exact absurd h.symm (joinA_ne_empty _ (by simp) hdq)
  | x :: p', [] =>
    exact absurd h (joinA_ne_empty _ (by simp) hdp)
  | x :: p', y :: q' =>
    apply map_toString_inj _ _ hdp hdq
    rw [← addrParts_joinA (x :: p') (by simp) hdp,
      ← addrParts_joinA (y :: q') (by simp) hdq, h]

/-! #### Structure of the path-level rows -/

mutual

/-- The path argument only prefixes every produced path. -/
theorem rowsPV_shift : ∀ (v : Value) (p q : List Nat) (k : Sc),
    rowsPV v (p ++ q) k = (rowsPV v q k).map (fun r => (p ++ r.1, r.2))
  | .sc x, p, q, k => by simp [rowsPV]
  | .list l, p, q, k => by simp [rowsPV]
  | .obj m, p, q, k => by
    rw [rowsPV, rowsPV, List.map_append, rowsPE_shift m p q 1]
    by_cases hk : k.truthy <;> simp [hk]

theorem rowsPE_shift : ∀ (m : List (Sc × Value)) (p q : List Nat) (i : Nat),
    rowsPE m (p ++ q) i = (rowsPE m q i).map (fun r => (p ++ r.1, r.2))
  | [], p, q, i => by simp [rowsPE]
  | (k, v) :: t, p, q, i => by
    rw [rowsPE, rowsPE, List.map_append,
      show p ++ q ++ [i] = p ++ (q ++ [i]) from (List.append_assoc p q [i]),
      rowsPV_shift v p (q ++ [i]) k, rowsPE_shift t p q (i + 1)]

end

/-- Every path produced under an entry list starts with the ordinal of
one of its entries. -/
theorem rowsPE_head : ∀ (m : List (Sc × Value)) (i : Nat) r,
    r ∈ rowsPE m [] i →
    ∃ j σ, r.1 = j :: σ ∧ i ≤ j ∧ j < i + m.length := by
  intro m
  induction m with
  | nil => intro i r hr; simp [rowsPE] at hr
  | cons e t ih =>
    intro i r hr
    rw [rowsPE] at hr
    rcases List.mem_append.mp hr with hb | hrest
    · rw [show ([] : List Nat) ++ [i] = [i] ++ [] from rfl,
        rowsPV_shift e.2 [i] [] e.1] at hb
      obtain ⟨r', _, rfl⟩ := List.mem_map.mp hb
      exact ⟨i, r'.1, rfl, le_refl i, by simp⟩
    · obtain ⟨j, σ, h1, h2, h3⟩ := ih (i + 1) r hrest
      exact ⟨j, σ, h1, by omega, by simp at h3 ⊢; omega⟩

/-- Paths under an entry list are never empty. -/
theorem rowsPE_path_ne_nil (m : List (Sc × Value)) (i : Nat) (r : List Nat × Sc × Sc)
    (hr : r ∈ rowsPE m [] i) : r.1 ≠ [] := by
  obtain ⟨j, σ, h1, _, _⟩ := rowsPE_head m i r hr
  simp [h1]

/-- A truthy key always contributes at least the node's own row. -/
theorem rowsPV_ne_nil (v : Value) (p : List Nat) (k : Sc)
    (hk : k.truthy = true) : rowsPV v p k ≠ [] := by
  cases v <;> simp [rowsPV, hk]

mutual

/-- The paths of one keyed value are distinct. -/
theorem rowsPV_paths_nodup : ∀ (v : Value) (k : Sc),
    ((rowsPV v [] k).map (·.1)).Nodup
  | .sc x, k => by simp [rowsPV]
  | .list l, k => by simp [rowsPV]
  | .obj m, k => by
    rw [rowsPV]
    by_cases hk : k.truthy
    · simp only [hk, if_true, List.singleton_append, List.map_cons,
        List.nodup_cons]
      refine ⟨?_, rowsPE_paths_nodup m 1⟩
      intro hmem
      obtain ⟨r, hr, hr1⟩ := List.mem_map.mp hmem
      exact rowsPE_path_ne_nil m 1 r hr hr1
    · simpa [hk] using rowsPE_paths_nodup m 1

theorem rowsPE_paths_nodup : ∀ (m : List (Sc × Value)) (i : Nat),
    ((rowsPE m [] i).map (·.1)).Nodup
  | [], i => by simp [rowsPE]
  | (k, v) :: t, i => by
    rw [rowsPE, List.map_append]
    refine List.Nodup.append ?_ (rowsPE_paths_nodup t (i + 1)) ?_
    · rw [show ([] : List Nat) ++ [i] = [i] ++ [] from rfl,
        rowsPV_shift v [i] [] k, List.map_map]
      have hcomp : ((rowsPV v [] k).map
            ((fun (x : List Nat × Sc × Sc) => x.1) ∘
              (fun r => ([i] ++ r.1, r.2)))) =
          ((rowsPV v [] k).map (·.1)).map (fun σ => i :: σ) := by
        rw [List.map_map]
        rfl
      rw [hcomp]
      exact List.Nodup.map (fun a b hab => by simpa using hab)
        (rowsPV_paths_nodup v k)
    · intro σ hσ hσ2
      rw [show ([] : List Nat) ++ [i] = [i] ++ [] from rfl,
        rowsPV_shift v [i] [] k, List.map_map] at hσ
      obtain ⟨r, hr, hr1⟩ := List.mem_map.mp hσ
      obtain ⟨r', hr', hr1'⟩ := List.mem_map.mp hσ2
      obtain ⟨j, σ', h1, h2, _⟩ := rowsPE_head t (i + 1) r' hr'
      have e1 : i :: r.1 = σ := by simpa using hr1
      have e2 : r'.1 = σ := hr1'
      rw [← e1, h1] at e2
      simp only [List.cons.injEq] at e2
      obtain ⟨e3, -⟩ := e2
      omega

end

mutual

/-- Every path element under a fragment value is a single digit. -/
theorem rowsPV_paths_sdig : ∀ (v : Value) (k : Sc), goodVal v = true →
    ∀ r ∈ rowsPV v [] k, ∀ x ∈ r.1, sdigB x = true
  | .sc _, k => by intro _ r hr; simp [rowsPV] at hr; simp [hr]
  | .list _, k => by intro h; simp [goodVal] at h
  | .obj m, k => by
    intro h r hr
    rw [rowsPV] at hr
    simp only [goodVal, Bool.and_eq_true, decide_eq_true_eq] at h
    rcases List.mem_append.mp hr with hm | hd
    · intro x hx
      have hr1 : r.1 = [] := by
        by_cases hk : k.truthy
        · simp [hk] at hm
          simp [hm]
        · simp [hk] at hm
      rw [hr1] at hx
      exact absurd hx (by simp)
    · exact rowsPE_paths_sdig m 1 h.2 (by omega) (by omega) r hd

theorem rowsPE_paths_sdig : ∀ (m : List (Sc × Value)) (i : Nat),
    goodEntries m = true → 1 ≤ i → i + m.length ≤ 10 →
    ∀ r ∈ rowsPE m [] i, ∀ x ∈ r.1, sdigB x = true
  | [], i => by intro _ _ _ r hr; simp [rowsPE] at hr
  | (k, v) :: t, i => by
    intro hg h1 h2 r hr
    simp only [goodEntries, Bool.and_eq_true] at hg
    rw [rowsPE] at hr
    rcases List.mem_append.mp hr with hb | hrest
    · rw [show ([] : List Nat) ++ [i] = [i] ++ [] from rfl,
        rowsPV_shift v [i] [] k] at hb
      obtain ⟨r', hr', rfl⟩ := List.mem_map.mp hb
      intro x hx
      simp at hx
      rcases hx with rfl | hx
      · rw [sdigB_iff]
        simp at h2
        omega
      · exact rowsPV_paths_sdig v k hg.1.2 r' hr' x hx
    · exact rowsPE_paths_sdig t (i + 1) hg.2 (by omega)
        (by simp at h2 ⊢; omega) r hrest

end

mutual

/-- Under a truthy key, chopping the last segment of a produced path
yields another produced path (the parent node's row exists). -/
theorem rowsPV_parent_mem : ∀ (v : Value) (k : Sc), goodVal v = true →
    k.truthy = true → ∀ σ, σ ∈ (rowsPV v [] k).map (·.1) → σ ≠ [] →
    σ.dropLast ∈ (rowsPV v [] k).map (·.1)
  | .sc _, k => by
    intro _ _ σ hσ hne
    simp [rowsPV] at hσ
    exact absurd hσ hne
  | .list _, k => by intro h; simp [goodVal] at h
  | .obj m, k => by
    intro hg hk σ hσ hne
    rw [rowsPV] at hσ ⊢
    simp only [hk, if_true, List.singleton_append, List.map_cons,
      List.mem_cons] at hσ ⊢
    rcases hσ with h0 | hd
    · exact absurd h0 hne
    · by_cases hlen : 1 < σ.length
      · simp only [goodVal, Bool.and_eq_true, decide_eq_true_eq] at hg
        exact Or.inr (rowsPE_parent_mem m 1 hg.2 σ hd hlen)
      · left
        obtain ⟨r, hr, hr1⟩ := List.mem_map.mp hd
        have hne2 := rowsPE_path_ne_nil m 1 r hr
        rw [hr1] at hne2
        cases σ with
        | nil => exact absurd rfl hne2
        | cons x σ2 =>
          cases σ2 with
          | nil => rfl
          | cons y σ3 => exact absurd (by simp) hlen

theorem rowsPE_parent_mem : ∀ (m : List (Sc × Value)) (i : Nat),
    goodEntries m = true → ∀ σ, σ ∈ (rowsPE m [] i).map (·.1) →
    1 < σ.length → σ.dropLast ∈ (rowsPE m [] i).map (·.1)
  | [], i => by intro _ σ hσ; simp [rowsPE] at hσ
  | (k, v) :: t, i => by
    intro hg σ hσ hlen
    simp only [goodEntries, Bool.and_eq_true] at hg
    rw [rowsPE, List.map_append] at hσ ⊢
    rcases List.mem_append.mp hσ with hb | hrest
    · refine List.mem_append.mpr (Or.inl ?_)
      rw [show ([] : List Nat) ++ [i] = [i] ++ [] from rfl,
        rowsPV_shift v [i] [] k, List.map_map] at hb ⊢
      obtain ⟨r, hr, hr1⟩ := List.mem_map.mp hb
      have hr1' : σ = i :: r.1 := by simpa using hr1.symm
      have hne : r.1 ≠ [] := by
        intro h0
        rw [hr1', h0] at hlen
        simp at hlen
      have hpm := rowsPV_parent_mem v k hg.1.2 hg.1.1 r.1
        (List.mem_map.mpr ⟨r, hr, rfl⟩) hne
      obtain ⟨r', hr', hr1''⟩ := List.mem_map.mp hpm
      refine List.mem_map.mpr ⟨r', hr', ?_⟩
      simp only [hr1', List.dropLast_cons_of_ne_nil hne]
      simp [hr1'']
    · refine List.mem_append.mpr (Or.inr ?_)
      exact rowsPE_parent_mem t (i + 1) hg.2 σ hrest hlen

end

/-! #### Children of a node, at the path level -/

/-- Filtering commutes with mapping. -/
theorem filterOfMap (f : α → β) (p : β → Bool) (l : List α) :
    (l.map f).filter p = (l.filter (fun a => p (f a))).map f := by
  induction l with
  | nil => rfl
  | cons a t ih =>
    simp only [List.map_cons, List.filter_cons]
    by_cases h : p (f a) <;> simp [h, ih]

/-- The paths under one entry, as the entry-local paths with the ordinal
in front. -/
theorem rowsPV_map_fst_shift (v : Value) (i : Nat) (k : Sc) :
    (rowsPV v [i] k).map (·.1) =
      ((rowsPV v [] k).map (·.1)).map (fun σ => i :: σ) := by
  rw [show ([i] : List Nat) = [i] ++ [] from rfl, rowsPV_shift v [i] [] k,
    List.map_map, List.map_map]
  rfl

/-- Under a truthy key, exactly one produced path is the node's own. -/
theorem rowsPV_own_filter (v : Value) (k : Sc) (hk : k.truthy = true) :
    ((rowsPV v [] k).map (·.1)).filter (fun σ => σ = ([] : List Nat)) =
      [[]] := by
  cases v with
  | sc x => simp [rowsPV]
  | list l => simp [rowsPV, hk]
  | obj m =>
    rw [rowsPV]
    simp only [hk, if_true, List.singleton_append, List.map_cons,
      List.filter_cons]
    have hnil : ((rowsPE m [] 1).map (·.1)).filter
        (fun σ => σ = ([] : List Nat)) = [] := by
      rw [List.filter_eq_nil_iff]
      intro σ hσ
      obtain ⟨r, hr, hr1⟩ := List.mem_map.mp hσ
      simp [← hr1, rowsPE_path_ne_nil m 1 r hr]
    simp [hnil]

/-- The one-segment paths under an entry list are its ordinals in
order. -/
theorem rowsPE_level1_filter : ∀ (m : List (Sc × Value)) (i : Nat),
    goodEntries m = true →
    ((rowsPE m [] i).map (·.1)).filter (fun σ => σ.length = 1) =
      (List.range m.length).map (fun c => [i + c]) := by
  intro m
  induction m with
  | nil => intro i _; simp [rowsPE]
  | cons e t ih =>
    intro i hg
    obtain ⟨k, v⟩ := e
    simp only [goodEntries, Bool.and_eq_true] at hg
    rw [rowsPE, List.map_append, List.filter_append]
    rw [show ([] : List Nat) ++ [i] = [i] from rfl, rowsPV_map_fst_shift,
      filterOfMap]
    have hpt : ∀ σ ∈ (rowsPV v [] k).map (·.1),
        (decide ((i :: σ).length = 1)) = (decide (σ = ([] : List Nat))) := by
      intro σ _
      cases σ <;> simp
    rw [List.filter_congr hpt, rowsPV_own_filter v k hg.1.1]
    rw [ih (i + 1) hg.2]
    rw [List.length_cons, List.range_succ_eq_map]
    simp only [List.map_cons, List.map_map, List.map_nil, Nat.add_zero,
      List.singleton_append]
    refine congrArg₂ _ rfl ?_
    refine List.map_congr_left ?_
    intro c _
    simp only [Function.comp_apply]
    rw [show i + Nat.succ c = i + 1 + c from by omega]

mutual

/-- The children filter under one keyed value: the paths one segment
below p are the ordinals of the sub-dict at p, in order. -/
theorem rowsPV_children_filter : ∀ (v : Value) (k : Sc) (p : List Nat),
    goodVal v = true →
    ((rowsPV v [] k).map (·.1)).filter
        (fun σ => σ ≠ [] ∧ σ.dropLast = p) =
      (match entAtV v p with
        | some mm => (List.range mm.length).map (fun c => p ++ [c + 1])
        | none => [])
  | .sc x, k, p => by intro _; simp [rowsPV, entAtV]
  | .list l, k, p => by intro h; simp [goodVal] at h
  | .obj m, k, p => by
    intro hg
    have hge : goodEntries m = true := by
      simp only [goodVal, Bool.and_eq_true] at hg
      exact hg.2
    rw [rowsPV, List.map_append, List.filter_append]
    have hmk : (((if k.truthy = true then [(([] : List Nat), k, nestedSc)]
          else []).map (·.1)).filter
          (fun σ => σ ≠ [] ∧ σ.dropLast = p)) = [] := by
      by_cases hk : k.truthy <;> simp [hk]
    rw [hmk, List.nil_append]
    cases p with
    | nil =>
      have hpt : ∀ σ ∈ (rowsPE m [] 1).map (·.1),
          (decide (σ ≠ [] ∧ σ.dropLast = ([] : List Nat))) =
            (decide (σ.length = 1)) := by
        intro σ _
        rcases σ with - | ⟨x, σ2⟩
        · simp
        · rcases σ2 with - | ⟨y, σ3⟩ <;> simp
      rw [List.filter_congr hpt, rowsPE_level1_filter m 1 hge]
      show _ = (List.range m.length).map (fun c => [] ++ [c + 1])
      refine List.map_congr_left ?_
      intro c _
      simp [Nat.add_comm]
    | cons j p' =>
      rw [rowsPE_children_filter m 1 j p' hge]
      rfl

theorem rowsPE_children_filter : ∀ (m : List (Sc × Value)) (i : Nat)
    (j : Nat) (p : List Nat), goodEntries m = true →
    ((rowsPE m [] i).map (·.1)).filter
        (fun σ => σ ≠ [] ∧ σ.dropLast = j :: p) =
      (match entAtE m i (j :: p) with
        | some mm => (List.range mm.length).map (fun c => (j :: p) ++ [c + 1])
        | none => [])
  | [], i, j, p => by intro _; simp [rowsPE, entAtE]
  | (k, v) :: t, i, j, p => by
    intro hg
    simp only [goodEntries, Bool.and_eq_true] at hg
    rw [rowsPE, List.map_append, List.filter_append]
    rw [show ([] : List Nat) ++ [i] = [i] from rfl, rowsPV_map_fst_shift,
      filterOfMap]
    by_cases hij : j = i
    · subst hij
      have hpt : ∀ σ ∈ (rowsPV v [] k).map (·.1),
          (decide ((j :: σ) ≠ [] ∧ (j :: σ).dropLast = j :: p)) =
            (decide (σ ≠ [] ∧ σ.dropLast = p)) := by
        intro σ _
        rcases σ with - | ⟨x, σ2⟩
        · simp
        · rw [List.dropLast_cons_of_ne_nil (by simp)]
          simp
      rw [List.filter_congr hpt, rowsPV_children_filter v k p hg.1.2]
      have hrest : ((rowsPE t [] (j + 1)).map (·.1)).filter
          (fun σ => σ ≠ [] ∧ σ.dropLast = j :: p) = [] := by
        rw [List.filter_eq_nil_iff]
        intro σ hσ
        obtain ⟨r, hr, hr1⟩ := List.mem_map.mp hσ
        obtain ⟨j', σ', h1, h2, _⟩ := rowsPE_head t (j + 1) r hr
        rw [← hr1, h1]
        rcases σ' with - | ⟨y, σ3⟩
        · simp
        · rw [List.dropLast_cons_of_ne_nil (by simp)]
          simp
          intro hj'
          omega
      rw [hrest, List.append_nil]
      have hnav : entAtE ((k, v) :: t) j (j :: p) = entAtV v p := by
        rw [entAtE]
        simp
      rw [hnav]
      cases hE : entAtV v p with
      | none => simp
      | some mm => simp [List.map_map]
    · have hpt : ∀ σ ∈ (rowsPV v [] k).map (·.1),
          (decide ((i :: σ) ≠ [] ∧ (i :: σ).dropLast = j :: p)) =
            (decide False) := by
        intro σ _
        rcases σ with - | ⟨x, σ2⟩
        · simp
        · rw [List.dropLast_cons_of_ne_nil (by simp)]
          simp
          intro h
          exact absurd h.symm hij
      rw [List.filter_congr hpt]
      rw [rowsPE_children_filter t (i + 1) j p hg.2]
      have hnav : entAtE ((k, v) :: t) i (j :: p) = entAtE t (i + 1) (j :: p) := by
        rw [entAtE]
        simp [hij]
      rw [hnav]
      simp

end

/-! #### Sorting an already ascending child list is the identity -/

/-- Code-point comparison is asymmetric. -/
theorem charsLt_asymm : ∀ (a b : List Char), charsLt a b = true →
    charsLt b a = false
  | a, [] => by intro h; rw [charsLt] at h; cases a <;> exact absurd h (by simp)
  | [], b :: bs => by intro _; rfl
  | a :: as', b :: bs => by
    intro h
    rw [charsLt] at h ⊢
    by_cases h1 : a.toNat < b.toNat
    · simp [h1, show ¬ b.toNat < a.toNat from by omega]
    · by_cases h2 : b.toNat < a.toNat
      · simp [h1, h2] at h
      · simp only [h1, h2, if_false] at h ⊢
        exact charsLt_asymm as' bs h

/-- Python string comparison is asymmetric. -/
theorem strLt_asymm (a b : String) (h : strLt a b = true) :
    strLt b a = false :=
  charsLt_asymm a.data b.data h

/-- Inserting an element whose key is above every key present appends. -/
theorem insertByKey_top (key : α → String) (a : α) (l : List α)
    (h : ∀ b ∈ l, strLt (key b) (key a) = true) :
    insertByKey key a l = l ++ [a] := by
  induction l with
  | nil => rfl
  | cons b t ih =>
    rw [insertByKey, if_neg, ih (fun c hc => h c (by simp [hc]))]
    · simp
    · simp [strLt_asymm _ _ (h b (by simp))]

/-- Folding insertions of an ascending list onto a dominated prefix. -/
theorem pySorted_ascending_aux (key : α → String) : ∀ (l acc : List α),
    l.Pairwise (fun x y => strLt (key x) (key y) = true) →
    (∀ x ∈ l, ∀ b ∈ acc, strLt (key b) (key x) = true) →
    l.foldl (fun acc x => insertByKey key x acc) acc = acc ++ l := by
  intro l
  induction l with
  | nil => intro acc _ _; simp
  | cons a t ih =>
    intro acc hpair hdom
    rw [List.foldl_cons, insertByKey_top key a acc (hdom a (by simp))]
    rw [List.pairwise_cons] at hpair
    rw [ih (acc ++ [a]) hpair.2]
    · simp
    · intro x hx b hb
      rcases List.mem_append.mp hb with hb1 | hb2
      · exact hdom x (by simp [hx]) b hb1
      · rw [show b = a from by simpa using hb2]
        exact hpair.1 x hx

/-- Python sorted leaves an already strictly ascending list unchanged. -/
theorem pySorted_of_ascending (key : α → String) (l : List α)
    (hpair : l.Pairwise (fun x y => strLt (key x) (key y) = true)) :
    pySorted key l = l := by
  rw [pySorted, pySorted_ascending_aux key l [] hpair (by simp)]
  rfl

/-! #### Rebuilding a dict from its child results -/

/-- Dict assignment of a fresh key appends. -/
theorem upsert_fresh (k : Sc) (v : Value) (acc : List (Sc × Value))
    (h : k ∉ acc.map Prod.fst) : upsert k v acc = acc ++ [(k, v)] := by
  induction acc with
  | nil => rfl
  | cons e t ih =>
    rw [upsert, if_neg, ih (fun hm => h (by simp [hm]))]
    · simp
    · intro he
      exact h (by simp [he])

/-- The key list of a cons unfolds keysDistinct. -/
theorem keysDistinct_cons {k : Sc} {t : List Sc}
    (h : keysDistinct (k :: t) = true) : k ∉ t ∧ keysDistinct t = true := by
  rw [keysDistinct, Bool.and_eq_true, Bool.not_eq_true'] at h
  refine ⟨fun hm => ?_, h.2⟩
  rw [List.contains_eq_any_beq] at h
  have := h.1
  rw [List.any_eq_false] at this
  exact absurd (by simp : (k == k) = true) (this k hm)

/-- Every key of a fragment entry list is truthy. -/
theorem goodEntries_truthy : ∀ (m : List (Sc × Value)),
    goodEntries m = true → ∀ e ∈ m, e.1.truthy = true := by
  intro m
  induction m with
  | nil => intro _ e he; simp at he
  | cons a t ih =>
    intro hg e he
    obtain ⟨k, v⟩ := a
    simp only [goodEntries, Bool.and_eq_true] at hg
    rcases List.mem_cons.mp he with rfl | ht
    · exact hg.1.1
    · exact ih hg.2 e ht

/-- One truthy step of the dict-branch fold. -/
theorem buildDictFold_cons_truthy (k : Sc) (r : Value)
    (t acc : List (Sc × Value)) (hk : k.truthy = true) :
    buildDictFold ((k, r) :: t) acc = buildDictFold t (upsert k r acc) := by
  cases r <;> simp [buildDictFold, hk]

/-- The dict-branch fold over truthy fresh keys rebuilds the entries in
order after the accumulator. -/
theorem buildDictFold_fresh : ∀ (m acc : List (Sc × Value)),
    (∀ e ∈ m, e.1.truthy = true) →
    keysDistinct (m.map Prod.fst) = true →
    (∀ e ∈ m, e.1 ∉ acc.map Prod.fst) →
    buildDictFold m acc = acc ++ m := by
  intro m
  induction m with
  | nil => intro acc _ _ _; simp [buildDictFold]
  | cons a t ih =>
    intro acc htr hkd hfresh
    obtain ⟨k, v⟩ := a
    rw [buildDictFold_cons_truthy k v t acc (htr (k, v) (by simp))]
    rw [upsert_fresh k v acc (hfresh (k, v) (by simp))]
    obtain ⟨hknt, hkd'⟩ := keysDistinct_cons (by simpa using hkd)
    rw [ih (acc ++ [(k, v)]) (fun e he => htr e (by simp [he])) hkd' ?_]
    · simp
    · intro e he hm
      rw [List.map_append] at hm
      rcases List.mem_append.mp hm with h1 | h1
      · exact hfresh e (by simp [he]) h1
      · have hek : e.1 = k := by simpa using h1
        apply hknt
        rw [← hek]
        exact List.mem_map.mpr ⟨e, he, rfl⟩

/-! #### The tree of a distinct-address row list -/

/-- Lookup in a map with distinct keys finds the entry. -/
theorem find_of_nodup : ∀ (l : List (String × UNode)) (a : String)
    (n : UNode), (l.map Prod.fst).Nodup → (a, n) ∈ l →
    l.find? (fun e => e.1 = a) = some (a, n) := by
  intro l
  induction l with
  | nil => intro a n _ hm; simp at hm
  | cons e t ih =>
    intro a n hnd hm
    rw [List.map_cons, List.nodup_cons] at hnd
    rcases List.mem_cons.mp hm with rfl | hm2
    · rw [List.find?_cons_of_pos _ (by simp)]
    · rw [List.find?_cons_of_neg, ih a n hnd.2 hm2]
      intro he
      apply hnd.1
      have : e.1 = a := by simpa using he
      rw [this]
      exact List.mem_map.mpr ⟨(a, n), hm2, rfl⟩

/-- treeGet on a distinct-address tree returns the entry. -/
theorem treeGet_of_mem (tree : List (String × UNode)) (a : String)
    (n : UNode) (hnd : (tree.map Prod.fst).Nodup) (hm : (a, n) ∈ tree) :
    treeGet tree a = some n := by
  rw [treeGet, find_of_nodup tree a n hnd hm]
  rfl

/-- treeGet finds something at every present address. -/
theorem treeGet_isSome_of_mem (tree : List (String × UNode)) (a : String)
    (hm : a ∈ tree.map Prod.fst) : (treeGet tree a).isNone = false := by
  obtain ⟨e, he, he1⟩ := List.mem_map.mp hm
  rw [treeGet]
  rcases hfind : tree.find? (fun e => e.1 = a) with - | e2
  · have hs := List.find?_eq_none.mp hfind e he
    simp [he1] at hs
  · rw [hfind]
    rfl

/-- Dict assignment of a fresh address appends to the tree. -/
theorem treeInsert_fresh (n : String) (node : UNode)
    (acc : List (String × UNode)) (h : n ∉ acc.map Prod.fst) :
    treeInsert n node acc = acc ++ [(n, node)] := by
  induction acc with
  | nil => rfl
  | cons e t ih =>
    rw [treeInsert, if_neg, ih (fun hm => h (by simp [hm]))]
    · simp
    · intro he
      exact h (by simp [he])

/-- The tree-building loop over three-cell rows with distinct addresses
appends the rows in order. -/
theorem buildTreeGo_fresh : ∀ (rs : List Row) (acc : List (String × UNode)),
    (rs.map (·.1)).Nodup → (∀ r ∈ rs, r.1 ∉ acc.map Prod.fst) →
    buildTreeGo (rs.map rowCells) acc =
      .ok (acc ++ rs.map (fun r => (r.1, ⟨r.2.1, r.2.2⟩))) := by
  intro rs
  induction rs with
  | nil => intro acc _ _; simp [buildTreeGo]
  | cons r t ih =>
    intro acc hnd hfresh
    obtain ⟨a, kk, vv⟩ := r
    rw [List.map_cons, List.nodup_cons] at hnd
    rw [List.map_cons, show rowCells (a, kk, vv) = [Sc.s a, kk, vv] from rfl,
      buildTreeGo]
    rw [show (Sc.s a).str = a from rfl]
    rw [treeInsert_fresh a ⟨kk, vv⟩ acc (hfresh (a, kk, vv) (by simp))]
    have hfr : ∀ r' ∈ t,
        r'.1 ∉ (acc ++ [(a, ({ key := kk, value := vv } : UNode))]).map
          Prod.fst := by
      intro r' hr' hm
      rw [List.map_append] at hm
      rcases List.mem_append.mp hm with h1 | h1
      · exact hfresh r' (by simp [hr']) h1
      · have hra : r'.1 = a := by simpa using h1
        apply hnd.1
        rw [← hra]
        exact List.mem_map.mpr ⟨r', hr', rfl⟩
    rw [ih (acc ++ [(a, UNode.mk kk vv)]) hnd.2 hfr]
    simp

/-! #### Fuel bounds and absence of lists -/

/-- The row count under one entry does not depend on the path prefix. -/
theorem rowsPV_length_shift (v : Value) (i : Nat) (k : Sc) :
    (rowsPV v [i] k).length = (rowsPV v [] k).length := by
  rw [show ([i] : List Nat) = [i] ++ [] from rfl, rowsPV_shift v [i] [] k,
    List.length_map]

mutual

/-- A value's height is at most its own row count under a truthy key. -/
theorem heightV_le_rows : ∀ (v : Value) (k : Sc), goodVal v = true →
    k.truthy = true → heightV v ≤ (rowsPV v [] k).length
  | .sc x, k => by intro _ _; simp [heightV, rowsPV]
  | .list l, k => by intro _ _; simp [heightV, rowsPV]
  | .obj m, k => by
    intro hg hk
    simp only [goodVal, Bool.and_eq_true] at hg
    rw [heightV, rowsPV]
    simp only [hk, if_true, List.singleton_append, List.length_cons]
    exact Nat.succ_le_succ (heightE_le_rows m 1 hg.2)

/-- An entry list's height is at most its row count. -/
theorem heightE_le_rows : ∀ (m : List (Sc × Value)) (i : Nat),
    goodEntries m = true → heightE m ≤ (rowsPE m [] i).length
  | [], i => by intro _; simp [heightE, rowsPE]
  | (k, v) :: t, i => by
    intro hg
    simp only [goodEntries, Bool.and_eq_true] at hg
    rw [heightE, rowsPE, List.length_append]
    refine max_le ?_ ?_
    · calc heightV v ≤ (rowsPV v [] k).length :=
            heightV_le_rows v k hg.1.2 hg.1.1
        _ = (rowsPV v ([] ++ [i]) k).length := by
            rw [List.nil_append, rowsPV_length_shift]
        _ ≤ _ := Nat.le_add_right _ _
    · calc heightE t ≤ (rowsPE t [] (i + 1)).length :=
          heightE_le_rows t (i + 1) hg.2
        _ ≤ _ := Nat.le_add_left _ _

end

mutual

/-- Fragment values contain no lists, so flatten never raises. -/
theorem goodVal_listsFit : ∀ (v : Value), goodVal v = true →
    listsFit v = true
  | .sc x => by intro _; rfl
  | .list l => by intro h; simp [goodVal] at h
  | .obj m => by
    intro h
    simp only [goodVal, Bool.and_eq_true] at h
    rw [listsFit]
    exact goodEntries_listsFitO m h.2

theorem goodEntries_listsFitO : ∀ (m : List (Sc × Value)),
    goodEntries m = true → listsFitO m = true
  | [] => by intro _; rfl
  | (k, v) :: t => by
    intro h
    simp only [goodEntries, Bool.and_eq_true] at h
    rw [listsFitO, Bool.and_eq_true]
    exact ⟨goodVal_listsFit v h.1.2, goodEntries_listsFitO t h.2⟩

end

/-! #### The flatten bridge: string rows are joined path rows -/

mutual

/-- entry_rows produces exactly the joined path rows of the entry. -/
theorem entry_rows_bridge : ∀ (v : Value) (p : List Nat) (k : Sc),
    goodVal v = true → (∀ x ∈ p, sdigB x = true) → p ≠ [] →
    entry_rows v (joinA p) k =
      (rowsPV v p k).map (fun r => ((joinA r.1, r.2) : Row))
  | .sc x, p, k => by intro _ _ _; simp [entry_rows, rowsPV]
  | .list l, p, k => by intro h; simp [goodVal] at h
  | .obj m, p, k => by
    intro hg hp hpne
    simp only [goodVal, Bool.and_eq_true, decide_eq_true_eq] at hg
    rw [entry_rows, rowsPV, List.map_append]
    rw [process_entries_bridge m p 1 hg.2 hp (by omega)
      (by have := hg.1.1.2; omega)]
    by_cases hk : k.truthy <;> simp [hk]

/-- process_entries produces exactly the joined path rows of the
entries. -/
theorem process_entries_bridge : ∀ (m : List (Sc × Value)) (p : List Nat)
    (i : Nat), goodEntries m = true → (∀ x ∈ p, sdigB x = true) →
    1 ≤ i → i + m.length ≤ 10 →
    process_entries m (joinA p) i =
      (rowsPE m p i).map (fun r => ((joinA r.1, r.2) : Row))
  | [], p, i => by intro _ _ _ _; simp [process_entries, rowsPE]
  | (k, v) :: t, p, i => by
    intro hg hp h1 h2
    simp only [goodEntries, Bool.and_eq_true] at hg
    rw [process_entries, rowsPE, List.map_append]
    have hdig : ∀ x ∈ p ++ [i], sdigB x = true := by
      intro x hx
      rcases List.mem_append.mp hx with hx1 | hx1
      · exact hp x hx1
      · rw [show x = i from by simpa using hx1, sdigB_iff]
        simp at h2
        omega
    have hcur : (if joinA p ≠ "" then joinA p ++ "." ++ toString i
        else toString i) = joinA (p ++ [i]) := by
      rcases hpe : p with - | ⟨x, p'⟩
      · simp [joinA_nil, joinA_singleton]
      · rw [if_pos (joinA_ne_empty (x :: p') (by simp) (hpe ▸ hp)),
          joinA_snoc (x :: p') i (by simp)]
    show entry_rows v (if joinA p ≠ "" then joinA p ++ "." ++ toString i
        else toString i) k ++ _ = _
    rw [hcur]
    rw [entry_rows_bridge v (p ++ [i]) k hg.1.2 hdig (by simp)]
    rw [process_entries_bridge t p (i + 1) hg.2 hp (by omega)
      (by simp at h2 ⊢; omega)]

end

/-! #### build_structure rebuilds every fragment subtree -/

/-- The tree answers node lookups under base like the fragment value's
rows. -/
abbrev rowsSpec (tree : List (String × UNode)) (base : List Nat)
    (v : Value) (k : Sc) : Prop :=
  ∀ σ kk vv, (σ, kk, vv) ∈ rowsPV v [] k →
    treeGet tree (joinA (base ++ σ)) = some (UNode.mk kk vv)

/-- The tree answers children queries under base like the fragment
value's sub-dicts. -/
abbrev childrenSpec (tree : List (String × UNode)) (base : List Nat)
    (v : Value) : Prop :=
  ∀ p, (∀ x ∈ p, sdigB x = true) →
    childrenOf tree (joinA (base ++ p)) =
      (match entAtV v p with
        | some mm => (List.range mm.length).map
            (fun c => joinA (base ++ (p ++ [c + 1])))
        | none => [])

/-- rowsSpec over an entry list enumerated from i. -/
abbrev rowsSpecE (tree : List (String × UNode)) (base : List Nat)
    (ents : List (Sc × Value)) (i : Nat) : Prop :=
  ∀ σ kk vv, (σ, kk, vv) ∈ rowsPE ents [] i →
    treeGet tree (joinA (base ++ σ)) = some (UNode.mk kk vv)

/-- childrenSpec over an entry list enumerated from i. -/
abbrev childrenSpecE (tree : List (String × UNode)) (base : List Nat)
    (ents : List (Sc × Value)) (i : Nat) : Prop :=
  ∀ j p, i ≤ j → sdigB j = true → (∀ x ∈ p, sdigB x = true) →
    childrenOf tree (joinA (base ++ j :: p)) =
      (match entAtE ents i (j :: p) with
        | some mm => (List.range mm.length).map
            (fun c => joinA (base ++ j :: (p ++ [c + 1])))
        | none => [])

mutual

/-- With enough fuel, build_structure at the address of a fragment value
returns exactly that value. -/
theorem build_structure_correct : ∀ (v : Value)
    (tree : List (String × UNode)) (q : List Nat) (k : Sc) (fuel : Nat),
    goodVal v = true → k.truthy = true → (∀ x ∈ q, sdigB x = true) →
    q ≠ [] → heightV v ≤ fuel → rowsSpec tree q v k →
    childrenSpec tree q v →
    build_structure tree fuel (joinA q) = some v
  | .sc x, tree, q, k, fuel => by
    intro hg hk hq hqne hfuel hrs hcs
    obtain ⟨f, rfl⟩ : ∃ f, fuel = f + 1 :=
      ⟨fuel - 1, by rw [heightV] at hfuel; omega⟩
    have hget : treeGet tree (joinA q) = some (UNode.mk k x) := by
      have h := hrs [] k x (by simp [rowsPV])
      rwa [List.append_nil] at h
    have hch : childrenOf tree (joinA q) = [] := by
      have h := hcs [] (by simp)
      rw [List.append_nil] at h
      simpa [entAtV] using h
    rw [build_structure, obind_eq_some]
    refine ⟨UNode.mk k x, hget, ?_⟩
    rw [hch]
    simp
  | .list l, tree, q, k, fuel => by
    intro hg
    simp [goodVal] at hg
  | .obj m, tree, q, k, fuel => by
    intro hg hk hq hqne hfuel hrs hcs
    have hg' := hg
    simp only [goodVal, Bool.and_eq_true, decide_eq_true_eq] at hg'
    obtain ⟨f, rfl⟩ : ∃ f, fuel = f + 1 :=
      ⟨fuel - 1, by rw [heightV] at hfuel; omega⟩
    have hfuelE : heightE m ≤ f := by
      rw [heightV] at hfuel
      omega
    have hget : treeGet tree (joinA q) = some (UNode.mk k nestedSc) := by
      have h := hrs [] k nestedSc (by simp [rowsPV, hk])
      rwa [List.append_nil] at h
    have hch : childrenOf tree (joinA q) =
        (List.range m.length).map (fun c => joinA (q ++ [c + 1])) := by
      have h := hcs [] (by simp)
      rw [List.append_nil] at h
      simpa [entAtV] using h
    have hlseg : ∀ c ∈ List.range m.length,
        lastSeg (joinA (q ++ [c + 1])) = toString (c + 1) := by
      intro c hc
      refine lastSeg_joinA q (c + 1) ?_
      intro x hx
      rcases List.mem_append.mp hx with hx1 | hx1
      · exact hq x hx1
      · rw [show x = c + 1 from by simpa using hx1, sdigB_iff]
        have := List.mem_range.mp hc
        omega
    have hsort : pySorted lastSeg
        ((List.range m.length).map (fun c => joinA (q ++ [c + 1]))) =
        (List.range m.length).map (fun c => joinA (q ++ [c + 1])) := by
      refine pySorted_of_ascending lastSeg _ ?_
      rw [List.pairwise_map]
      refine List.Pairwise.imp_of_mem ?_ (List.pairwise_lt_range m.length)
      intro a b ha hb hab
      rw [hlseg a ha, hlseg b hb]
      refine strLt_toString ?_ ?_ (by omega)
      · rw [sdigB_iff]
        have := List.mem_range.mp ha
        omega
      · rw [sdigB_iff]
        have := List.mem_range.mp hb
        omega
    have hclass : (((List.range m.length).map
        (fun c => joinA (q ++ [c + 1]))).map lastSeg).all is_list_index
        = false := by
      rw [List.all_eq_false]
      refine ⟨lastSeg (joinA (q ++ [0 + 1])), ?_, ?_⟩
      · exact List.mem_map.mpr ⟨joinA (q ++ [0 + 1]),
          List.mem_map.mpr ⟨0, List.mem_range.mpr (by omega), rfl⟩, rfl⟩
      · rw [hlseg 0 (List.mem_range.mpr (by omega))]
        simp [is_list_index_toString (show sdigB 1 = true from by decide)]
    have hrsE : rowsSpecE tree q m 1 := by
      intro σ kk vv hσ
      refine hrs σ kk vv ?_
      rw [rowsPV]
      exact List.mem_append_right _ hσ
    have hcsE : childrenSpecE tree q m 1 := by
      intro j p hij hj hp
      have h := hcs (j :: p) (by
        intro x hx
        rcases List.mem_cons.mp hx with rfl | hx2
        · exact hj
        · exact hp x hx2)
      simpa [entAtV] using h
    have hmapM := child_results_correct m tree q 1 f hg'.2 hq hqne
      (by omega) (by omega) hfuelE hrsE hcsE
    have hlist : (List.range m.length).map (fun c => joinA (q ++ [1 + c])) =
        (List.range m.length).map (fun c => joinA (q ++ [c + 1])) := by
      refine List.map_congr_left ?_
      intro c _
      rw [Nat.add_comm]
    rw [hlist] at hmapM
    rw [build_structure, obind_eq_some]
    refine ⟨UNode.mk k nestedSc, hget, ?_⟩
    rw [hch, hsort]
    rw [if_neg (by
      simp only [List.isEmpty_iff]
      intro hmap
      rcases List.map_eq_nil_iff.mp hmap with h0
      have := List.range_eq_nil.mp h0
      omega)]
    rw [if_neg (by rw [hclass]; simp)]
    rw [obind_eq_some]
    refine ⟨m, hmapM, ?_⟩
    rw [buildDictFold_fresh m [] (goodEntries_truthy m hg'.2) hg'.1.2
      (by simp)]
    simp

/-- The child loop of the dict branch returns exactly the entry list. -/
theorem child_results_correct : ∀ (ents : List (Sc × Value))
    (tree : List (String × UNode)) (q : List Nat) (i fuel : Nat),
    goodEntries ents = true → (∀ x ∈ q, sdigB x = true) → q ≠ [] →
    1 ≤ i → i + ents.length ≤ 10 → heightE ents ≤ fuel →
    rowsSpecE tree q ents i → childrenSpecE tree q ents i →
    ((List.range ents.length).map (fun c => joinA (q ++ [i + c]))).mapM
      (fun cn => do
        let childNode ← treeGet tree cn
        let childResult ← build_structure tree fuel cn
        pure (childNode.key, childResult)) = some ents
  | [], tree, q, i, fuel => by
    intro _ _ _ _ _ _ _ _
    rfl
  | (k, v) :: t, tree, q, i, fuel => by
    intro hg hq hqne h1 h2 hfuel hrsE hcsE
    simp only [goodEntries, Bool.and_eq_true] at hg
    have hdigi : sdigB i = true := by
      rw [sdigB_iff]
      simp at h2
      omega
    have hdigqi : ∀ x ∈ q ++ [i], sdigB x = true := by
      intro x hx
      rcases List.mem_append.mp hx with hx1 | hx1
      · exact hq x hx1
      · rw [show x = i from by simpa using hx1]
        exact hdigi
    have hcell : ∃ cell, (([i] : List Nat), k, cell) ∈
        rowsPE ((k, v) :: t) [] i := by
      rcases v with x | l | mm
      · exact ⟨x, by
          rw [rowsPE]
          exact List.mem_append_left _ (by simp [rowsPV])⟩
      · exact absurd hg.1.2 (by simp [goodVal])
      · exact ⟨nestedSc, by
          rw [rowsPE]
          refine List.mem_append_left _ ?_
          rw [List.nil_append, rowsPV]
          simp [hg.1.1]⟩
    obtain ⟨cell, hcellmem⟩ := hcell
    have hget : treeGet tree (joinA (q ++ [i])) =
        some (UNode.mk k cell) := hrsE [i] k cell hcellmem
    have hrs' : rowsSpec tree (q ++ [i]) v k := by
      intro σ kk vv hσ
      have hmem : (([i] ++ σ : List Nat), kk, vv) ∈
          rowsPE ((k, v) :: t) [] i := by
        rw [rowsPE]
        refine List.mem_append_left _ ?_
        rw [show ([] : List Nat) ++ [i] = [i] ++ [] from rfl,
          rowsPV_shift v [i] [] k]
        exact List.mem_map.mpr ⟨(σ, kk, vv), hσ, rfl⟩
      have h := hrsE ([i] ++ σ) kk vv hmem
      rwa [← List.append_assoc] at h
    have hcs' : childrenSpec tree (q ++ [i]) v := by
      intro p2 hp2
      have h := hcsE i p2 (le_refl i) hdigi hp2
      rw [show entAtE ((k, v) :: t) i (i :: p2) = entAtV v p2 from by
        rw [entAtE]; simp] at h
      simp only [List.append_assoc, List.singleton_append]
      exact h
    have hbuild : build_structure tree fuel (joinA (q ++ [i])) = some v :=
      build_structure_correct v tree (q ++ [i]) k fuel hg.1.2 hg.1.1
        hdigqi (by simp)
        (le_trans (le_max_left _ _) (by rw [heightE] at hfuel; exact hfuel))
        hrs' hcs'
    have hrsE' : rowsSpecE tree q t (i + 1) := by
      intro σ kk vv hσ
      refine hrsE σ kk vv ?_
      rw [rowsPE]
      exact List.mem_append_right _ hσ
    have hcsE' : childrenSpecE tree q t (i + 1) := by
      intro j p hij hj hp
      have h := hcsE j p (by omega) hj hp
      rw [show entAtE ((k, v) :: t) i (j :: p) = entAtE t (i + 1) (j :: p)
        from by rw [entAtE]; simp; intro he; omega] at h
      exact h
    have hmapMt := child_results_correct t tree q (i + 1) fuel hg.2 hq hqne
      (by omega) (by simp at h2 ⊢; omega)
      (le_trans (le_max_right _ _) (by rw [heightE] at hfuel; exact hfuel))
      hrsE' hcsE'
    rw [List.length_cons, List.range_succ_eq_map]
    simp only [List.map_cons, List.map_map, Nat.add_zero]
    rw [List.mapM_cons]
    have hshift : (List.range t.length).map
        ((fun c => joinA (q ++ [i + c])) ∘ Nat.succ) =
        (List.range t.length).map (fun c => joinA (q ++ [i + 1 + c])) := by
      refine List.map_congr_left ?_
      intro c _
      simp only [Function.comp_apply]
      rw [show i + Nat.succ c = i + 1 + c from by omega]
    rw [hshift, hmapMt]
    rw [hget, hbuild]
    rfl

end

/-! #### The root loop rebuilds the top-level entries -/

/-- The root loop over the ordinal roots of a fragment entry list
appends the rebuilt entries, in order, to the accumulated dict. -/
theorem roots_loop_correct : ∀ (ents : List (Sc × Value))
    (tree : List (String × UNode)) (i : Nat) (acc : List (Sc × Value)),
    goodEntries ents = true → keysDistinct (ents.map Prod.fst) = true →
    1 ≤ i → i + ents.length ≤ 10 → heightE ents ≤ treeFuel tree →
    rowsSpecE tree [] ents i → childrenSpecE tree [] ents i →
    (∀ e ∈ ents, e.1 ∉ acc.map Prod.fst) →
    buildRoots tree ((List.range ents.length).map (fun c => joinA [i + c]))
      acc = some (acc ++ ents) := by
  intro ents
  induction ents with
  | nil =>
    intro tree i acc _ _ _ _ _ _ _ _
    simp [buildRoots]
  | cons e t ih =>
    intro tree i acc hg hkd h1 h2 hfuel hrsE hcsE hfresh
    obtain ⟨k, v⟩ := e
    simp only [goodEntries, Bool.and_eq_true] at hg
    have hdigi : sdigB i = true := by
      rw [sdigB_iff]
      simp at h2
      omega
    have hcell : ∃ cell, (([i] : List Nat), k, cell) ∈
        rowsPE ((k, v) :: t) [] i := by
      rcases v with x | l | mm
      · exact ⟨x, by
          rw [rowsPE]
          exact List.mem_append_left _ (by simp [rowsPV])⟩
      · exact absurd hg.1.2 (by simp [goodVal])
      · exact ⟨nestedSc, by
          rw [rowsPE]
          refine List.mem_append_left _ ?_
          rw [List.nil_append, rowsPV]
          simp [hg.1.1]⟩
    obtain ⟨cell, hcellmem⟩ := hcell
    have hget : treeGet tree (joinA [i]) = some (UNode.mk k cell) :=
      hrsE [i] k cell hcellmem
    have hrs' : rowsSpec tree [i] v k := by
      intro σ kk vv hσ
      refine hrsE ([i] ++ σ) kk vv ?_
      rw [rowsPE]
      refine List.mem_append_left _ ?_
      rw [show ([] : List Nat) ++ [i] = [i] ++ [] from rfl,
        rowsPV_shift v [i] [] k]
      exact List.mem_map.mpr ⟨(σ, kk, vv), hσ, rfl⟩
    have hcs' : childrenSpec tree [i] v := by
      intro p2 hp2
      have h := hcsE i p2 (le_refl i) hdigi hp2
      rw [show entAtE ((k, v) :: t) i (i :: p2) = entAtV v p2 from by
        rw [entAtE]; simp] at h
      exact h
    have hbuild : build_structure tree (treeFuel tree) (joinA [i]) =
        some v :=
      build_structure_correct v tree [i] k (treeFuel tree) hg.1.2 hg.1.1
        (by intro x hx; rw [show x = i from by simpa using hx]; exact hdigi)
        (by simp)
        (le_trans (le_max_left _ _) (by rw [heightE] at hfuel; exact hfuel))
        hrs' hcs'
    have hrsE' : rowsSpecE tree [] t (i + 1) := by
      intro σ kk vv hσ
      refine hrsE σ kk vv ?_
      rw [rowsPE]
      exact List.mem_append_right _ hσ
    have hcsE' : childrenSpecE tree [] t (i + 1) := by
      intro j p hij hj hp
      have h := hcsE j p (by omega) hj hp
      rw [show entAtE ((k, v) :: t) i (j :: p) = entAtE t (i + 1) (j :: p)
        from by rw [entAtE]; simp; intro he; omega] at h
      exact h
    obtain ⟨hknt, hkd'⟩ := keysDistinct_cons (by simpa using hkd)
    have hfr : ∀ e ∈ t, e.1 ∉ (acc ++ [(k, v)]).map Prod.fst := by
      intro e he hm
      rw [List.map_append] at hm
      rcases List.mem_append.mp hm with hm1 | hm1
      · exact hfresh e (by simp [he]) hm1
      · have hek : e.1 = k := by simpa using hm1
        apply hknt
        rw [← hek]
        exact List.mem_map.mpr ⟨e, he, rfl⟩
    rw [List.length_cons, List.range_succ_eq_map]
    simp only [List.map_cons, List.map_map, Nat.add_zero]
    rw [buildRoots, obind_eq_some]
    refine ⟨UNode.mk k cell, hget, ?_⟩
    rw [if_pos hg.1.1, obind_eq_some]
    refine ⟨v, hbuild, ?_⟩
    rw [upsert_fresh k v acc (hfresh (k, v) (by simp))]
    have hshift : (List.range t.length).map
        ((fun c => joinA [i + c]) ∘ Nat.succ) =
        (List.range t.length).map (fun c => joinA [i + 1 + c]) := by
      refine List.map_congr_left ?_
      intro c _
      simp only [Function.comp_apply]
      rw [show i + Nat.succ c = i + 1 + c from by omega]
    rw [hshift]
    rw [ih tree (i + 1) (acc ++ [(k, v)]) hg.2 hkd' (by omega)
      (by simp at h2 ⊢; omega)
      (le_trans (le_max_right _ _) (by rw [heightE] at hfuel; exact hfuel))
      hrsE' hcsE' hfr]
    simp

/-! #### The global tree of a flattened fragment dict -/

/-- The tree unflatten builds from the flattened rows of a fragment
dict. -/
def mkTree (m : List (Sc × Value)) : List (String × UNode) :=
  (rowsPE m [] 1).map (fun r => (joinA r.1, UNode.mk r.2.1 r.2.2))

/-- The addresses of the global tree are the joined paths. -/
theorem mkTree_keys (m : List (Sc × Value)) :
    (mkTree m).map Prod.fst = ((rowsPE m [] 1).map (·.1)).map joinA := by
  rw [mkTree, List.map_map, List.map_map]
  rfl

/-- The global tree has distinct addresses. -/
theorem mkTree_keys_nodup (m : List (Sc × Value))
    (hg : goodEntries m = true) (hlen : m.length ≤ 9) :
    ((mkTree m).map Prod.fst).Nodup := by
  rw [mkTree_keys]
  refine List.Nodup.map_on ?_ (rowsPE_paths_nodup m 1)
  intro x hx y hy hxy
  obtain ⟨rx, hrx, hrx1⟩ := List.mem_map.mp hx
  obtain ⟨ry, hry, hry1⟩ := List.mem_map.mp hy
  refine joinA_inj x y ?_ ?_ hxy
  · intro a ha
    refine rowsPE_paths_sdig m 1 hg (by omega) (by omega) rx hrx a ?_
    rw [hrx1]
    exact ha
  · intro a ha
    refine rowsPE_paths_sdig m 1 hg (by omega) (by omega) ry hry a ?_
    rw [hry1]
    exact ha

/-- The global tree answers node lookups by row content. -/
theorem mkTree_rowsSpec (m : List (Sc × Value))
    (hg : goodEntries m = true) (hlen : m.length ≤ 9) :
    rowsSpecE (mkTree m) [] m 1 := by
  intro σ kk vv hσ
  refine treeGet_of_mem _ _ _ (mkTree_keys_nodup m hg hlen) ?_
  rw [mkTree]
  exact List.mem_map.mpr ⟨(σ, kk, vv), hσ, rfl⟩

/-- The global tree answers children queries by the path filter. -/
theorem mkTree_childrenSpec (m : List (Sc × Value))
    (hg : goodEntries m = true) (hlen : m.length ≤ 9) :
    childrenSpecE (mkTree m) [] m 1 := by
  intro j p hij hj hp
  have hdig : ∀ x ∈ (j :: p : List Nat), sdigB x = true := by
    intro x hx
    rcases List.mem_cons.mp hx with rfl | hx2
    · exact hj
    · exact hp x hx2
  show childrenOf (mkTree m) (joinA (j :: p)) = _
  rw [childrenOf, mkTree_keys, filterOfMap]
  have hpt : ∀ σ ∈ (rowsPE m [] 1).map (·.1),
      (decide (1 < (addrParts (joinA σ)).length ∧
          parentAddr (joinA σ) = joinA (j :: p))) =
        (decide (σ ≠ [] ∧ σ.dropLast = j :: p)) := by
    intro σ hσ
    obtain ⟨r, hr, hr1⟩ := List.mem_map.mp hσ
    have hσne : σ ≠ [] := by
      rw [← hr1]
      exact rowsPE_path_ne_nil m 1 r hr
    have hσdig : ∀ x ∈ σ, sdigB x = true := by
      intro a ha
      refine rowsPE_paths_sdig m 1 hg (by omega) (by omega) r hr a ?_
      rw [hr1]
      exact ha
    rw [decide_eq_decide]
    rw [addrParts_length_joinA σ hσne hσdig, parentAddr_joinA σ hσne hσdig]
    constructor
    · rintro ⟨hl, hpar⟩
      refine ⟨hσne, ?_⟩
      refine joinA_inj _ _ ?_ hdig hpar
      intro a ha
      exact hσdig a (List.dropLast_sublist σ |>.subset ha)
    · rintro ⟨-, hpar⟩
      refine ⟨?_, by rw [hpar]⟩
      have hpos : 0 < σ.length := List.length_pos.mpr hσne
      have hlen2 : σ.length = σ.dropLast.length + 1 := by
        rw [List.length_dropLast]
        omega
      rw [hlen2, hpar]
      simp
  rw [List.filter_congr hpt, rowsPE_children_filter m 1 j p hg]
  cases hE : entAtE m 1 (j :: p) with
  | none => simp
  | some mm => simp [List.map_map]

/-- The roots of the global tree are the top-level ordinals in order. -/
theorem mkTree_roots (m : List (Sc × Value))
    (hg : goodEntries m = true) (hlen : m.length ≤ 9) :
    rootsOf (mkTree m) =
      (List.range m.length).map (fun c => joinA [1 + c]) := by
  rw [rootsOf, mkTree_keys, filterOfMap]
  have hpt : ∀ σ ∈ (rowsPE m [] 1).map (·.1),
      (decide ((addrParts (joinA σ)).length = 1 ∨
          (treeGet (mkTree m) (parentAddr (joinA σ))).isNone)) =
        (decide (σ.length = 1)) := by
    intro σ hσ
    obtain ⟨r, hr, hr1⟩ := List.mem_map.mp hσ
    have hσne : σ ≠ [] := by
      rw [← hr1]
      exact rowsPE_path_ne_nil m 1 r hr
    have hσdig : ∀ x ∈ σ, sdigB x = true := by
      intro a ha
      refine rowsPE_paths_sdig m 1 hg (by omega) (by omega) r hr a ?_
      rw [hr1]
      exact ha
    rw [decide_eq_decide]
    rw [addrParts_length_joinA σ hσne hσdig, parentAddr_joinA σ hσne hσdig]
    constructor
    · rintro (hl | hpar)
      · exact hl
      · by_contra hne1
        have hlt : 1 < σ.length := by
          have : 1 ≤ σ.length := by
            cases σ
            · exact absurd rfl hσne
            · simp
          omega
        have hmem : σ.dropLast ∈ (rowsPE m [] 1).map (·.1) := by
          have := rowsPE_parent_mem m 1 hg σ ?_ hlt
          · exact this
          · rw [← hr1]
            exact List.mem_map.mpr ⟨r, hr, rfl⟩
        have := treeGet_isSome_of_mem (mkTree m) (joinA σ.dropLast) ?_
        · rw [this] at hpar
          simp at hpar
        · rw [mkTree_keys]
          exact List.mem_map.mpr ⟨σ.dropLast, hmem, rfl⟩
    · intro hl
      exact Or.inl hl
  rw [List.filter_congr hpt, rowsPE_level1_filter m 1 hg, List.map_map]
  rfl

/-- Binding a succeeding Except computation. -/
theorem ebind_ok {ε α β : Type} (a : α) (f : α → Except ε β) :
    ((Except.ok a : Except ε α) >>= f) = f a := rfl

/-- A fragment entry list with at least one entry produces at least one
row. -/
theorem rowsPE_ne_nil (m : List (Sc × Value)) (i : Nat)
    (hg : goodEntries m = true) (hne : m ≠ []) : rowsPE m [] i ≠ [] := by
  cases m with
  | nil => exact absurd rfl hne
  | cons e t =>
    obtain ⟨k, v⟩ := e
    simp only [goodEntries, Bool.and_eq_true] at hg
    rw [rowsPE]
    intro happ
    rcases List.append_eq_nil.mp happ with ⟨hb, -⟩
    exact rowsPV_ne_nil v _ k hg.1.1 hb

/-- flatten then unflatten is the identity on every dict tree in the
fragment (nested dicts nonempty with at most nine entries, all keys
truthy and distinct per level, values scalars or such dicts), provided
the first produced row is not mistaken for a textual header. -/
theorem roundtrip_small_objects (m : List (Sc × Value)) (rows : List Row)
    (hg : goodTop m = true) (hfl : flatten (.obj m) = some rows)
    (hstrip : stripHeader (rows.map rowCells) = rows.map rowCells) :
    unflatten (rows.map rowCells) = .ok (.obj m) := by
  simp only [goodTop, Bool.and_eq_true, decide_eq_true_eq] at hg
  obtain ⟨⟨hlen, hkd⟩, hge⟩ := hg
  have hfit : listsFit (.obj m) = true := by
    rw [listsFit]
    exact goodEntries_listsFitO m hge
  rw [flatten, flattenFull, if_pos hfit] at hfl
  have hrows : rows = process_entries m "" 1 := (Option.some.inj hfl).symm
  have hbr := process_entries_bridge m [] 1 hge (by simp) (by omega)
    (by omega)
  rw [joinA_nil] at hbr
  have hrows2 : rows =
      (rowsPE m [] 1).map (fun r => ((joinA r.1, r.2) : Row)) := by
    rw [hrows, hbr]
  subst hrows2
  by_cases hm : m = []
  · subst hm
    rfl
  · have hrne : rowsPE m [] 1 ≠ [] := rowsPE_ne_nil m 1 hge hm
    have hcne : ¬ ((((rowsPE m [] 1).map
        (fun r => ((joinA r.1, r.2) : Row))).map rowCells).isEmpty = true) := by
      simp only [List.isEmpty_iff, List.map_eq_nil_iff]
      exact hrne
    have hnodup : (((rowsPE m [] 1).map
        (fun r => ((joinA r.1, r.2) : Row))).map (·.1)).Nodup := by
      have h := mkTree_keys_nodup m hge hlen
      rw [mkTree_keys] at h
      have heq : ((rowsPE m [] 1).map
          (fun r => ((joinA r.1, r.2) : Row))).map (·.1) =
          ((rowsPE m [] 1).map (·.1)).map joinA := by
        rw [List.map_map, List.map_map]
        rfl
      rw [heq]
      exact h
    have hbt : buildTree ((((rowsPE m [] 1).map
        (fun r => ((joinA r.1, r.2) : Row)))).map rowCells) =
        .ok (mkTree m) := by
      rw [buildTree, buildTreeGo_fresh _ [] hnodup (by simp)]
      rw [List.nil_append, mkTree, List.map_map]
      rfl
    have hfuel : heightE m ≤ treeFuel (mkTree m) := by
      rw [treeFuel, mkTree, List.length_map]
      have := heightE_le_rows m 1 hge
      omega
    rw [unflatten, if_neg hcne, hstrip, if_neg hcne]
    rw [hbt, ebind_ok]
    rw [mkTree_roots m hge hlen]
    rw [roots_loop_correct m (mkTree m) 1 [] hge hkd (by omega) (by omega)
      hfuel (mkTree_rowsSpec m hge hlen) (mkTree_childrenSpec m hge hlen)
      (by simp)]
    simp

/-! ### Claim theorems for the converters -/

set_option maxHeartbeats 4000000 in
/-- C1.  The round-trip law fails on the code: flatten writes letter item
markers (1.a, 1.b, ...) while unflatten only recognizes the i-n form
(i1, i2, ...), so a flattened list is reconstructed as a dict (or lost).
On the very example of the unflatten doctest that asserts
unflatten(flatten(original)) == original, the code returns a value in
which the one-element process list has collapsed into its member dict;
the code contradicts its own doctest. -/
theorem roundtrip_doctest_violation :
    (flatten exC1).map (fun rs => unflatten (rs.map rowCells)) =
      some (.ok exC1wrong) ∧ exC1wrong ≠ exC1 :=
  ⟨by decide, by decide⟩

set_option maxHeartbeats 4000000 in
/-- C2 counterexample.  A nested Object with ten keys k1 .. k10 is
reconstructed with keys in lexicographic suffix order k1, k10, k2, ..., k9
(the sort key is the last address segment compared as a string), not in
insertion order, so the reconstructed value differs from the original. -/
theorem ten_key_object_reordered :
    (flatten ex10).map (fun rs => unflatten (rs.map rowCells)) =
      some (.ok ex10wrong) ∧ ex10wrong ≠ ex10 :=
  ⟨by decide, by decide⟩

/-- A two-entry dict whose second value is a nested dict with nine keys
k1 .. k9 and distinct values, a concrete instance of the fragment. -/
def exM9 : List (Sc × Value) :=
  [(.s "a", .sc (.i 1)),
   (.s "b", .obj [(.s "k1", .sc (.i 101)), (.s "k2", .sc (.i 102)),
     (.s "k3", .sc (.i 103)), (.s "k4", .sc (.i 104)),
     (.s "k5", .sc (.i 105)), (.s "k6", .sc (.i 106)),
     (.s "k7", .sc (.i 107)), (.s "k8", .sc (.i 108)),
     (.s "k9", .sc (.i 109))])]

/-- The rows flatten produces for exM9. -/
def exM9rows : List Row :=
  [("1", .s "a", .i 1), ("2", .s "b", nestedSc),
   ("2.1", .s "k1", .i 101), ("2.2", .s "k2", .i 102),
   ("2.3", .s "k3", .i 103), ("2.4", .s "k4", .i 104),
   ("2.5", .s "k5", .i 105), ("2.6", .s "k6", .i 106),
   ("2.7", .s "k7", .i 107), ("2.8", .s "k8", .i 108),
   ("2.9", .s "k9", .i 109)]

/-- A nested dict with ten keys k1 .. k10. -/
def ex10b : Value :=
  .obj [(.s "p", .obj ((List.range 10).map
    (fun j => (Sc.s ("k" ++ toString (j + 1)), Value.sc (Sc.i (100 + (j + 1)))))))]

/-- The reconstruction of ex10b, in lexicographic suffix order. -/
def ex10bWrong : Value :=
  .obj [(.s "p", .obj (List.map
    (fun j => (Sc.s ("k" ++ toString j), Value.sc (Sc.i (100 + (j : Int)))))
    [1, 10, 2, 3, 4, 5, 6, 7, 8, 9]))]

set_option maxHeartbeats 4000000 in
/-- C2 amended.  Key order is preserved through flatten-then-unflatten
exactly while ordinal suffixes stay single digit: on every dict tree
whose nested dicts are nonempty with at most nine entries and distinct
truthy keys (values scalars or such dicts), and whose first row is not
mistaken for a header, unflatten of the flattened rows returns the
original dict, order included; while a nested Object with ten keys is
reconstructed in lexicographic suffix order k1, k10, k2, ..., k9 instead
of insertion order.  (The values are arbitrary distinct scalars; the
addressing never inspects them.) -/
theorem order_preserved_iff_single_digit :
    (∀ (m : List (Sc × Value)) (rows : List Row), goodTop m = true →
        flatten (.obj m) = some rows →
        stripHeader (rows.map rowCells) = rows.map rowCells →
        unflatten (rows.map rowCells) = .ok (.obj m)) ∧
    ((flatten ex10b).map (fun rs => unflatten (rs.map rowCells)) =
      some (.ok ex10bWrong)) ∧ ex10bWrong ≠ ex10b :=
  ⟨roundtrip_small_objects, by decide, by decide⟩

set_option maxHeartbeats 4000000 in
/-- Witness for C2 amended: the round-trip law applied to the concrete
nine-key fragment instance exM9. -/
theorem order_preserved_iff_single_digit_witness :
    unflatten (exM9rows.map rowCells) = .ok (.obj exM9) :=
  order_preserved_iff_single_digit.1 exM9 exM9rows (by decide) (by decide)
    (by decide)

/-- C3 counterexample.  A five-cell row is not accepted with its last two
cells ignored: the tuple unpacking in the tree-building loop fails on it
and the conversion aborts, instead of returning the dict from the first
three cells. -/
theorem five_cell_row_rejected :
    unflatten [fiveCellRow] = .error (.badRow fiveCellRow) ∧
    unflatten [fiveCellRow] ≠ .ok (.obj [(.s "name", .sc (.s "test"))]) :=
  ⟨rfl, by decide⟩

/-- C3 amended.  If any row after header stripping has other than three
cells, unflatten fails on such a row (the tuple unpacking raises the
generic ValueError; there is no MalformedRowError class in the code) and
the whole conversion aborts with no partial result; five-cell rows are
rejected like any other non-three-cell row. -/
theorem malformed_row_aborts :
    ∀ rows : List (List Sc),
    ((stripHeader rows).any fun r => r.length ≠ 3) = true →
    ∃ bad, bad ∈ stripHeader rows ∧ bad.length ≠ 3 ∧
      unflatten rows = .error (.badRow bad) := by
  intro rows hbad
  obtain ⟨bad, hmem, hlen, herr⟩ :=
    buildTreeGo_error_of_bad (stripHeader rows) hbad
  refine ⟨bad, hmem, hlen, ?_⟩
  have hne : rows ≠ [] := by
    intro h0
    rw [h0] at hmem
    simp [stripHeader] at hmem
  have hne' : stripHeader rows ≠ [] := by
    intro h0
    rw [h0] at hmem
    simp at hmem
  rw [unflatten]
  rw [if_neg (by simpa [List.isEmpty_iff] using hne)]
  rw [if_neg (by simpa [List.isEmpty_iff] using hne')]
  rw [buildTree, herr []]
  rfl

/-- C3 amended, witness: the five-cell enriched row aborts the conversion
with the unpacking error. -/
theorem malformed_row_aborts_witness :
    ∃ bad, bad ∈ stripHeader [fiveCellRow] ∧ bad.length ≠ 3 ∧
      unflatten [fiveCellRow] = .error (.badRow bad) :=
  malformed_row_aborts [fiveCellRow] (by decide)

/-- C4 counterexample.  A dict-classified node with an accumulated
sibling key x whose next child has an empty key and a dict result does
not retain x: the child's mapping replaces the accumulated dict, so the
result holds only y, not x alongside y. -/
theorem empty_key_merge_drops_siblings :
    unflatten (rowsC4 (.i 5) (.i 6)) =
      .ok (.obj [(.s "root", .obj [(.s "y", .sc (.i 6))])]) ∧
    unflatten (rowsC4 (.i 5) (.i 6)) ≠
      .ok (.obj [(.s "root", .obj [(.s "x", .sc (.i 5)),
        (.s "y", .sc (.i 6))])]) :=
  ⟨rfl, by decide⟩

/-- C4 amended.  In the dict branch of build_structure, a child with a
falsy key whose result is a dict has its mapping replace the result dict
accumulated so far — whatever was accumulated and whatever siblings
remain; when the later siblings carry truthy distinct keys not in the
replacing mapping, they are then added to it in order, so the node's
result is the child's mapping followed by the later siblings and every
earlier accumulated key is discarded.  End to end, the four- and
five-row families show the same behavior through full unflatten for all
scalar cell values: the earlier sibling x is lost, the later sibling z
is added to the replacing mapping. -/
theorem empty_key_child_replaces_result :
    (∀ (k : Sc) (mm rest acc : List (Sc × Value)), k.truthy = false →
        buildDictFold ((k, .obj mm) :: rest) acc = buildDictFold rest mm) ∧
    (∀ (k : Sc) (mm rest acc : List (Sc × Value)), k.truthy = false →
        (∀ e ∈ rest, e.1.truthy = true) →
        keysDistinct (rest.map Prod.fst) = true →
        (∀ e ∈ rest, e.1 ∉ mm.map Prod.fst) →
        buildDictFold ((k, .obj mm) :: rest) acc = mm ++ rest) ∧
    (∀ a b : Sc, unflatten (rowsC4 a b) =
        .ok (.obj [(.s "root", .obj [(.s "y", .sc b)])])) ∧
    (∀ a b c : Sc, unflatten (rowsC4b a b c) =
        .ok (.obj [(.s "root", .obj [(.s "y", .sc b),
          (.s "z", .sc c)])])) := by
  refine ⟨?_, ?_, fun a b => rfl, fun a b c => rfl⟩
  · intro k mm rest acc hk
    simp [buildDictFold, hk]
  · intro k mm rest acc hk htr hkd hfresh
    rw [show buildDictFold ((k, .obj mm) :: rest) acc =
      buildDictFold rest mm from by simp [buildDictFold, hk]]
    exact buildDictFold_fresh rest mm htr hkd hfresh

/-- Witness for C4 amended: the fold with one earlier accumulated key,
the empty-key dict child, and one later sibling, at concrete scalars,
and the five-row family through full unflatten. -/
theorem empty_key_child_replaces_result_witness :
    buildDictFold [(Sc.s "", .obj [(.s "y", .sc (.i 6))]),
        (.s "z", .sc (.i 7))] [(.s "x", .sc (.i 5))] =
      [(.s "y", .sc (.i 6)), (.s "z", .sc (.i 7))] ∧
    unflatten (rowsC4b (.i 5) (.i 6) (.i 7)) =
      .ok (.obj [(.s "root", .obj [(.s "y", .sc (.i 6)),
        (.s "z", .sc (.i 7))])]) :=
  ⟨empty_key_child_replaces_result.2.1 (Sc.s "")
      [(.s "y", .sc (.i 6))] [(.s "z", .sc (.i 7))]
      [(.s "x", .sc (.i 5))] (by decide) (by simp [Sc.truthy]) (by decide)
      (by simp),
    empty_key_child_replaces_result.2.2.2 (.i 5) (.i 6) (.i 7)⟩

/-- C5 counterexample.  Stripping is applied only once: when the row
after the header is itself header-like, unflatten of the full sequence
treats it as data, while unflatten of the sequence without the header
strips it, so the two results differ. -/
theorem double_header_differs :
    headerLike hdrRow = true ∧
    unflatten [hdrRow, hdrRow] ≠ unflatten [hdrRow] :=
  ⟨rfl, by decide⟩

/-- C5 amended.  A leading header row (case-insensitively containing both
the number and key tokens) is stripped and the remaining rows are
processed as data; this equals unflatten of the remainder whenever the
remainder does not itself begin with a header-like row.  A node with
children is classified as a List exactly when every child's last address
segment matches the item-marker pattern, and otherwise builds an
Object. -/
theorem header_strip_and_classification :
    (∀ (h : List Sc) (rest : List (List Sc)), headerLike h = true →
      (∀ r, rest.head? = some r → headerLike r = false) →
      unflatten (h :: rest) = unflatten rest) ∧
    (∀ (tree : List (String × UNode)) (fuel : Nat) (addr : String) (v : Value),
      childrenOf tree addr ≠ [] →
      build_structure tree (fuel + 1) addr = some v →
      ((∃ l, v = .list l) ↔ ∀ n ∈ childrenOf tree addr,
          is_list_index (lastSeg n) = true) ∧
      ((¬ ∀ n ∈ childrenOf tree addr, is_list_index (lastSeg n) = true) →
          ∃ m, v = .obj m)) :=
  ⟨unflatten_strip_header, build_structure_list_iff⟩

/-- C5 amended, witness: the header is stripped in front of a data row,
and a concrete all-marker node is classified as a List. -/
theorem header_strip_and_classification_witness :
    unflatten [hdrRow, [Sc.s "1", Sc.s "name", Sc.s "test"]] =
      unflatten [[Sc.s "1", Sc.s "name", Sc.s "test"]] ∧
    (∃ l, Value.list [Value.sc (Sc.s "alpha")] = .list l) :=
  ⟨header_strip_and_classification.1 hdrRow [[Sc.s "1", Sc.s "name", Sc.s "test"]]
      (by decide) (by intro r hr; cases hr; decide),
    ((header_strip_and_classification.2
        [("1", ⟨Sc.s "tags", nestedSc⟩), ("1.i1", ⟨Sc.s "", Sc.s "alpha"⟩)]
        3 "1" (.list [Value.sc (Sc.s "alpha")]) (by decide) (by decide)).1.mpr
      (by decide)).elim (fun l hl => ⟨l, hl⟩)⟩

/-- C9.  flatten applied to a bare scalar (a string, number, bool or
None) returns the empty row sequence: the scalar is silently dropped, not
emitted as a row and not rejected with an error. -/
theorem scalar_input_yields_no_rows :
    ∀ (x : Sc) (pfx : String) (pk : Option Sc),
      flattenFull (.sc x) pfx pk = some [] ∧ flatten (.sc x) = some [] :=
  fun _ _ _ => ⟨rfl, rfl⟩

/-! ### Python operations shared by the schema tools

The schema values of the enricher and resolver are JSON values loaded by
json.load or yaml.safe_load, modelled by the same Value type; the Python
None object is the scalar null.  The helpers below model the Python
operations used by the sources, with an Option result whose none marks a
raised exception (TypeError or AttributeError on an unsupported
operand). -/

/-- Python startswith for strings. -/
def strStarts (s pat : String) : Bool := pat.data.isPrefixOf s.data

/-- Python endswith for strings. -/
def strEnds (s pat : String) : Bool := pat.data.isSuffixOf s.data

/-- Python substring membership (needle in hay). -/
def strContains (hay needle : String) : Bool :=
  hay.data.tails.any (fun t => needle.data.isPrefixOf t)

/-- Python s[n:] for strings. -/
def strDrop (s : String) (n : Nat) : String := String.mk (s.data.drop n)

/-- Python s.lstrip("./"): drops leading dot and slash characters. -/
def lstripDotSlash (s : String) : String :=
  String.mk (s.data.dropWhile (fun c => c == '.' || c == '/'))

/-- pathlib Path(p).stem: the final path component without its last
suffix; a leading or trailing dot does not count as a suffix. -/
def stemOf (p : String) : String :=
  let name := (splitCh '/' p).getLastD ""
  match name.data.reverse.findIdx? (fun c => c == '.') with
  | none => name
  | some rj =>
    let i := name.data.length - 1 - rj
    if 0 < i ∧ i < name.data.length - 1 then String.mk (name.data.take i)
    else name

/-- str(pathlib Path(p).parent): all but the last component, or dot. -/
def parentDirOf (p : String) : String :=
  let comps := (splitCh '/' p).dropLast
  if comps.isEmpty then "." else joinCh '/' comps

/-- The navigation loop over fragment parts shared by both resolvers:
follow each part while the current node is a dict containing it; none is
the early return taken when navigation fails. -/
def navParts : Value → List String → Option Value
  | r, [] => some r
  | r, p :: ps =>
    match r with
    | .obj m =>
      match objGetStr m p with
      | some r' => navParts r' ps
      | none => none
    | _ => none

/-- Python needle in v for a string needle: key membership on dicts,
element equality on lists, substring on strings; none is the TypeError
raised on a non-iterable operand. -/
def pyIn (needle : String) : Value → Option Bool
  | .obj m => some (m.any (fun kv => kv.1 = Sc.s needle))
  | .list l => some (l.any (fun e => e = strV needle))
  | .sc (.s h) => some (strContains h needle)
  | .sc _ => none

/-- Python v[k] for a string k: dict indexing; none is the TypeError (or
KeyError) raised on anything else. -/
def pyGetItem (v : Value) (k : String) : Option Value :=
  match v with
  | .obj m => objGetStr m k
  | _ => none

/-- Python v.get(k): returns None for a missing key; none is the
AttributeError raised when v is not a dict. -/
def dictGet (v : Value) (k : String) : Option Value :=
  match v with
  | .obj m => some ((objGetStr m k).getD nullV)
  | _ => none

/-- Python a or b on values (first truthy operand, else b). -/
def pyOrV (a b : Value) : Value := if a.truthy then a else b

/-- PascalCase from a camelCase key: first letter uppercased. -/
def pascalOf (s : String) : String :=
  match s.data with
  | [] => ""
  | c :: t => String.mk (c.toUpper :: t)

/-! ### The schema enricher (mdstools/schema/enricher.py) -/

namespace SchemaEnricher

/-- Embedding of SchemaEnricher resolve_ref(ref, current_schema) over a
schema cache: internal references navigate the current schema, relative
external references load the stem from the cache and navigate the
fragment; every failure returns the (None, None) sentinel.  The function
is total: no operation in it can raise. -/
def resolve_ref (cache : List (String × Value)) (ref : String)
    (currentSchema : Value) : Value × Value :=
  if strStarts ref "#/" then
    match navParts currentSchema (splitCh '/' (strDrop ref 2)) with
    | some res => (res, currentSchema)
    | none => (nullV, nullV)
  else if strStarts ref "." then
    let refPath := (splitCh '#' ref).headD ""
    let refFragment :=
      if strContains ref "#" then (splitCh '#' ref).getD 1 "" else ""
    let refFile := lstripDotSlash refPath
    match lookupStr cache (stemOf refFile) with
    | some refSchema =>
      if refFragment ≠ "" then
        match navParts refSchema (splitCh '/' (strDrop refFragment 1)) with
        | some res => (res, refSchema)
        | none => (nullV, nullV)
      else (refSchema, refSchema)
    | none => (nullV, nullV)
  else (nullV, nullV)

/-- Embedding of follow_refs: while the current node is a dict with a
ref key, resolve it; a falsy resolution breaks the loop.  The while loop
has no depth bound, so it is modelled with fuel: none for every fuel
value means the Python loop never exits (or the ref value is not a
string, which raises inside resolve_ref). -/
def follow_refs (cache : List (String × Value)) :
    Nat → Value → Value → Option (Value × Value)
  | 0, _, _ => none
  | fuel + 1, current, rootSchema =>
    match current with
    | .obj m =>
      match objGetStr m "$ref" with
      | some (.sc (.s ref)) =>
        match resolve_ref cache ref rootSchema with
        | (resolved, newRoot) =>
          if resolved.truthy then follow_refs cache fuel resolved newRoot
          else some (current, rootSchema)
      | some _ => none
      | none => some (current, rootSchema)
    | _ => some (current, rootSchema)

/-- Embedding of extract_example: first of examples[0], example, const,
enum[0]; the null value is the Python None returned when nothing
matches. -/
def extract_example (current : Value) : Option Value := do
  let b1 ← pyIn "examples" current
  let r1 ←
    if b1 then do
      let ex ← pyGetItem current "examples"
      match ex with
      | .list (x :: _) => pure (some x)
      | _ => pure none
    else pure none
  match r1 with
  | some x => pure x
  | none => do
    let b2 ← pyIn "example" current
    if b2 then pyGetItem current "example"
    else do
      let b3 ← pyIn "const" current
      if b3 then pyGetItem current "const"
      else do
        let b4 ← pyIn "enum" current
        let r4 ←
          if b4 then do
            let en ← pyGetItem current "enum"
            match en with
            | .list (x :: _) => pure (some x)
            | _ => pure none
          else pure none
        match r4 with
        | some x => pure x
        | none => pure nullV

/-- The inner loop of extract_from_oneof_anyof over the alternatives of
one keyword: the first alternative with a const key yields its const and
optional description. -/
def scanConst : List Value → Option (Option (Value × Value))
  | [] => some none
  | o :: t => do
    let b ← pyIn "const" o
    if b then do
      let c ← pyGetItem o "const"
      let d ← dictGet o "description"
      pure (some (c, d))
    else scanConst t

/-- Embedding of extract_from_oneof_anyof: scans anyOf then oneOf for a
const alternative; (None, None) when there is none. -/
def extract_from_oneof_anyof (current : Value) : Option (Value × Value) := do
  let b ← pyIn "anyOf" current
  let r ←
    if b then do
      let l ← pyGetItem current "anyOf"
      match l with
      | .list items => scanConst items
      | _ => pure none
    else pure none
  match r with
  | some p => pure p
  | none => do
    let b2 ← pyIn "oneOf" current
    let r2 ←
      if b2 then do
        let l ← pyGetItem current "oneOf"
        match l with
        | .list items => scanConst items
        | _ => pure none
      else pure none
    match r2 with
    | some p => pure p
    | none => pure (nullV, nullV)

/-- Embedding of extract_leaf_metadata: node description with the
property description as truthiness fallback, example via
extract_example then the oneOf and anyOf constants. -/
def extract_leaf_metadata (current : Value) (propDescription : Value) :
    Option (Value × Value) := do
  let dg ← dictGet current "description"
  let description := pyOrV dg propDescription
  let ex ← extract_example current
  match ex with
  | .sc .null => do
    let (ex2, altDesc) ← extract_from_oneof_anyof current
    let description2 :=
      if ¬ description.truthy ∧ altDesc.truthy then altDesc else description
    pure (description2, ex2)
  | _ => pure (description, ex)

/-- Embedding of resolve_array_items: unwraps the items schema of an
array type, following its refs. -/
def resolve_array_items (cache : List (String × Value)) (fuel : Nat)
    (current rootSchema : Value) : Option (Value × Value) := do
  let t ← dictGet current "type"
  match t with
  | .sc (.s "array") => do
    let b ← pyIn "items" current
    if b then do
      let items ← pyGetItem current "items"
      follow_refs cache fuel items rootSchema
    else pure (current, rootSchema)
  | _ => pure (current, rootSchema)

/-- The field-path loop of get_field_metadata: at each segment, require a
dict, follow refs, walk into properties, remember the property-level
description, follow refs again; at the last segment extract the leaf
metadata, otherwise unwrap array items and continue. -/
def gfmLoop (cache : List (String × Value)) (fuel : Nat) :
    Value → Value → List String → Option (Value × Value)
  | _, _, [] => some (nullV, nullV)
  | current, rootSchema, f :: rest =>
    match current with
    | .obj _ => do
      let (cur1, root1) ← follow_refs cache fuel current rootSchema
      let pb ← pyIn "properties" cur1
      let props? ←
        if pb then do
          let props ← pyGetItem cur1 "properties"
          let fb ← pyIn f props
          pure (if fb then some props else none)
        else pure none
      match props? with
      | none => pure (nullV, nullV)
      | some props => do
        let cur2 ← pyGetItem props f
        let propDescription ← dictGet cur2 "description"
        let (cur3, root3) ← follow_refs cache fuel cur2 root1
        if rest.isEmpty then extract_leaf_metadata cur3 propDescription
        else do
          let (cur4, root4) ← resolve_array_items cache fuel cur3 root3
          gfmLoop cache fuel cur4 root4 rest
    | _ => pure (nullV, nullV)

/-- Embedding of get_field_metadata(schema, field_path, root_schema):
an empty field path yields (None, None) at once; a missing root schema
defaults to the schema itself. -/
def get_field_metadata (cache : List (String × Value)) (fuel : Nat)
    (schema : Value) (fieldPath : List String) (rootSchema : Option Value) :
    Option (Value × Value) :=
  if fieldPath.isEmpty then some (nullV, nullV)
  else gfmLoop cache fuel schema (rootSchema.getD schema) fieldPath

/-- Embedding of enrich_row(key_path, current_value): splits the dotted
path, looks the first segment up in the schema cache, finds the
PascalCase main definition and walks the rest of the path.  The
current_value argument is unused, as in the source. -/
def enrich_row (cache : List (String × Value)) (fuel : Nat)
    (keyPath : String) (currentValue : Sc) : Option (Value × Value) :=
  if keyPath = "" then some (nullV, nullV)
  else
    let parts := (splitCh '.' keyPath).filter (fun p => p ≠ "")
    match parts with
    | [] => some (nullV, nullV)
    | topLevel :: restParts =>
      match lookupStr cache topLevel with
      | none => some (nullV, nullV)
      | some schema => do
        let db ← pyIn "definitions" schema
        if db then do
          let defs ← pyGetItem schema "definitions"
          let pb ← pyIn (pascalOf topLevel) defs
          if pb then do
            let mainDef ← pyGetItem defs (pascalOf topLevel)
            match mainDef with
            | .sc .null => pure (nullV, nullV)
            | _ => get_field_metadata cache fuel mainDef restParts (some schema)
          else pure (nullV, nullV)
        else pure (nullV, nullV)

/-- An input row of enrich_flattened_data: (level, key, value). -/
abbrev R3 := String × String × Sc

/-- An output row: (level, key, value, example, description). -/
abbrev R5 := String × String × Sc × Value × Value

/-- The row loop of enrich_flattened_data, carrying the path stack with
its top at the head.  For each row: pop entries at the same depth or
deeper, push a non-empty key, join the stacked keys into the dotted
path, look the path up, substitute empty strings for missing
annotations, and pop a leaf row's own key again.  (The source also
computes an is_array_item_marker flag whose only use is a pass
statement.) -/
def enrichAux (cache : List (String × Value)) (fuel : Nat) :
    List (Nat × String) → List R3 → Option (List R5)
  | _, [] => some []
  | stack, (level, key, value) :: rest => do
    let dep := (addrParts level).length
    let st1 := stack.dropWhile (fun e => dep ≤ e.1)
    let st2 := if key ≠ "" then (dep, key) :: st1 else st1
    let fullPath := joinCh '.' ((st2.map Prod.snd).reverse)
    let (description, exm) ← enrich_row cache fuel fullPath value
    let st3 :=
      if value ≠ nestedSc then
        match st2 with
        | (_, k') :: t' => if k' = key ∧ key ≠ "" then t' else st2
        | [] => st2
      else st2
    let out ← enrichAux cache fuel st3 rest
    pure ((level, key, value,
      (if exm = nullV then strV "" else exm),
      (if description = nullV then strV "" else description)) :: out)

/-- Embedding of enrich_flattened_data over a schema cache, with fuel
for the ref-following loops inside the per-row lookups. -/
def enrich_flattened_data (cache : List (String × Value)) (fuel : Nat)
    (flattenedRows : List R3) : Option (List R5) :=
  enrichAux cache fuel [] flattenedRows

end SchemaEnricher

/-! ### The schema resolver (mdstools/schema/resolver.py) -/

namespace SchemaResolver

/-- The original reference dict, returned whenever resolution is not
possible. -/
def refObj (ref : String) : Value := .obj [(.s "$ref", strV ref)]

/-- The resolution check of resolve_schema: the ref key is absent from
the resolved value, or maps to something other than the original ref.
none is the TypeError raised when the membership test or the indexing
hits a non-iterable or non-subscriptable value. -/
def refCheck (resolved : Value) (ref : String) : Option Bool := do
  let b ← pyIn "$ref" resolved
  if ¬ b then pure true
  else
    match resolved with
    | .obj m => pure (decide (¬ (objGetStr m "$ref" = some (strV ref))))
    | _ => none

/-- Python dict.update: assignments of all source entries in order. -/
def dictUpdate (d : List (Sc × Value)) (src : List (Sc × Value)) :
    List (Sc × Value) :=
  src.foldl (fun acc kv => upsert kv.1 kv.2 acc) d

mutual

/-- Embedding of SchemaResolver resolve_ref(ref, base_schema_path).
URLs and internal refs are kept as the original ref dict; filename refs
and relative refs load the stem from the cache, navigate the fragment
and recursively resolve, restarting the depth counter at zero.  Because
of that restart the mutual recursion is not bounded by the depth guard
of resolve_schema: it is modelled with fuel, and none for every fuel
value means the Python mutual recursion never returns (RecursionError). -/
def resolve_ref (cache : List (String × Value)) :
    Nat → String → String → Option Value
  | 0, _, _ => none
  | fuel + 1, ref, basePath =>
    if strStarts ref "http://" || strStarts ref "https://" then some (refObj ref)
    else if strStarts ref "#/" then some (refObj ref)
    else if strContains ref ".yaml#" || strEnds ref ".yaml" ||
        strContains ref ".json#" || strEnds ref ".json" then
      let refPath := (splitCh '#' ref).headD ""
      let refFragment :=
        if strContains ref "#" then "#" ++ (splitCh '#' ref).getD 1 "" else ""
      match lookupStr cache (stemOf refPath) with
      | some refSchema =>
        if refFragment ≠ "" ∧ refFragment ≠ "#" then
          match navParts refSchema (splitCh '/' (strDrop refFragment 2)) with
          | some result => resolve_schema cache fuel result "" 0
          | none => some (refObj ref)
        else resolve_schema cache fuel refSchema "" 0
      | none => some (refObj ref)
    else if strStarts ref "./" || strStarts ref "../" then
      let refPath := (splitCh '#' ref).headD ""
      let refFragment :=
        if strContains ref "#" then (splitCh '#' ref).getD 1 "" else ""
      let refFile := lstripDotSlash refPath
      let found :=
        match lookupStr cache refFile with
        | some s => some s
        | none => lookupStr cache (stemOf refFile)
      match found with
      | some refSchema =>
        match resolve_schema cache fuel refSchema (parentDirOf refFile) 0 with
        | none => none
        | some resolvedSchema =>
          if refFragment ≠ "" then
            match navParts resolvedSchema (splitCh '/' (strDrop refFragment 1)) with
            | some result => some result
            | none => some (refObj ref)
          else some resolvedSchema
      | none => some (refObj ref)
    else some (refObj ref)
termination_by structural n => n

/-- Embedding of resolve_schema(schema, base_path, depth): returns the
node unchanged once depth exceeds 20, resolves a pure ref dict in place,
merges a mixed ref dict with its siblings, and otherwise recurses into
dict values and list items with depth + 1. -/
def resolve_schema (cache : List (String × Value)) :
    Nat → Value → String → Nat → Option Value
  | 0, _, _, _ => none
  | fuel + 1, schema, basePath, depth =>
    if 20 < depth then some schema
    else
      match schema with
      | .obj kvs =>
        match objGetStr kvs "$ref" with
        | some refv =>
          match refv with
          | .sc (.s ref) =>
            if kvs.length = 1 then do
              let resolved ← resolve_ref cache fuel ref basePath
              match refCheck resolved ref with
              | none => none
              | some true => resolve_schema cache fuel resolved basePath (depth + 1)
              | some false => some schema
            else do
              let resolvedRef ← resolve_ref cache fuel ref basePath
              match refCheck resolvedRef ref with
              | none => none
              | some true =>
                match resolvedRef with
                | .obj _ => do
                  let rr ← resolve_schema cache fuel resolvedRef basePath (depth + 1)
                  match rr with
                  | .obj rrkvs =>
                    some (.obj (dictUpdate rrkvs
                      (kvs.filter (fun kv => ¬ kv.1 == Sc.s "$ref"))))
                  | _ => none
                | _ => some schema
              | some false => some schema
          | _ => none
        | none => do
          let entries ← kvs.mapM (fun kv =>
            (resolve_schema cache fuel kv.2 basePath (depth + 1)).map
              (fun r => (kv.1, r)))
          pure (.obj entries)
      | .list l => do
        let items ← l.mapM
          (fun it => resolve_schema cache fuel it basePath (depth + 1))
        pure (.list items)
      | .sc _ => some schema
termination_by structural n => n

end

end SchemaResolver

/-! ### Reference-cycle fixtures

Two cache shapes that make the reference-following code of the sources
recurse forever: a two-file external ref cycle for the resolver, and a
self-referential internal definition for the enricher. -/

/-- The external reference to definition A of file a. -/
def refA : String := "./a.yaml#/definitions/A"

/-- The external reference to definition B of file b. -/
def refB : String := "./b.yaml#/definitions/B"

/-- Definition A: a pure ref to B. -/
def nodeA : Value := .obj [(.s "$ref", strV refB)]

/-- Definition B: a pure ref to A. -/
def nodeB : Value := .obj [(.s "$ref", strV refA)]

/-- A resolver cache with the two-file ref cycle a -> b -> a. -/
def cycCacheR : List (String × Value) :=
  [("a", .obj [(.s "definitions", .obj [(.s "A", nodeA)])]),
   ("b", .obj [(.s "definitions", .obj [(.s "B", nodeB)])])]

/-- A definition that is a pure internal ref to itself. -/
def cycNode : Value := .obj [(.s "$ref", strV "#/definitions/Cyc")]

/-- The enricher cache value holding the self-referential definition. -/
def cacheVal : Value := .obj [(.s "definitions", .obj [(.s "Cyc", cycNode)])]

/-- An enricher cache whose cyc schema is self-referential. -/
def cycCacheE : List (String × Value) := [("cyc", cacheVal)]

/-- Two flattened rows whose second row's path walks into the
self-referential cyc schema. -/
def cycRows : List SchemaEnricher.R3 :=
  [("1", "cyc", nestedSc), ("1.1", "x", Sc.i 1)]

/-- On the two-file cycle, the resolver's mutually recursive resolve_ref
and resolve_schema consume any amount of fuel without returning: the
Python recursion never returns normally (RecursionError), because the
depth counter restarts at zero on every external hop. -/
theorem resolver_cyc_none : ∀ n,
    SchemaResolver.resolve_ref cycCacheR n refA "" = none ∧
    SchemaResolver.resolve_ref cycCacheR n refB "" = none ∧
    SchemaResolver.resolve_schema cycCacheR n nodeA "" 0 = none ∧
    SchemaResolver.resolve_schema cycCacheR n nodeB "" 0 = none := by
  intro n
  induction n with
  | zero => exact ⟨rfl, rfl, rfl, rfl⟩
  | succ n ih =>
    obtain ⟨hA, hB, hsA, hsB⟩ := ih
    refine ⟨?_, ?_, ?_, ?_⟩
    · calc SchemaResolver.resolve_ref cycCacheR (n + 1) refA ""
          = SchemaResolver.resolve_schema cycCacheR n nodeA "" 0 := rfl
        _ = none := hsA
    · calc SchemaResolver.resolve_ref cycCacheR (n + 1) refB ""
          = SchemaResolver.resolve_schema cycCacheR n nodeB "" 0 := rfl
        _ = none := hsB
    · show (SchemaResolver.resolve_ref cycCacheR n refB "") >>= _ = none
      rw [hB]
      rfl
    · show (SchemaResolver.resolve_ref cycCacheR n refA "") >>= _ = none
      rw [hA]
      rfl

/-- On the self-referential definition, follow_refs loops with an
unchanged state: no amount of fuel makes it return, so the Python while
loop never exits. -/
theorem follow_refs_cyc_none :
    ∀ n, SchemaEnricher.follow_refs cycCacheE n cycNode cacheVal = none := by
  intro n
  induction n with
  | zero => rfl
  | succ n ih =>
    calc SchemaEnricher.follow_refs cycCacheE (n + 1) cycNode cacheVal
        = SchemaEnricher.follow_refs cycCacheE n cycNode cacheVal := rfl
      _ = none := ih

/-- Enriching a row whose path walks into the self-referential schema
never returns, for any fuel. -/
theorem enrich_cyc_none :
    ∀ fuel, SchemaEnricher.enrich_flattened_data cycCacheE fuel cycRows = none := by
  intro fuel
  have h2 : SchemaEnricher.enrich_row cycCacheE fuel "cyc.x" (Sc.i 1) = none := by
    show (SchemaEnricher.follow_refs cycCacheE fuel cycNode cacheVal) >>= _ = none
    rw [follow_refs_cyc_none fuel]
    rfl
  have h3 : SchemaEnricher.enrichAux cycCacheE fuel [(1, "cyc")]
      [("1.1", "x", Sc.i 1)] = none := by
    show (SchemaEnricher.enrich_row cycCacheE fuel "cyc.x" (Sc.i 1)) >>= _ = none
    rw [h2]
    rfl
  show (SchemaEnricher.enrichAux cycCacheE fuel [(1, "cyc")]
      [("1.1", "x", Sc.i 1)]) >>= _ = none
  rw [h3]
  rfl

/-- Bind of a some on the left reduces. -/
theorem obind_some (a : α) (f : α → Option β) : (some a >>= f) = f a := rfl

/-- A dict key membership test succeeds exactly when the lookup does. -/
theorem any_key_iff (m : List (Sc × Value)) (k : String) :
    (m.any (fun kv => kv.1 = Sc.s k)) = true ↔ ∃ v, objGetStr m k = some v := by
  constructor
  · intro h
    rw [List.any_eq_true] at h
    obtain ⟨kv, hmem, hk⟩ := h
    have hs : (m.find? (fun kv => kv.1 = Sc.s k)).isSome := by
      rw [List.find?_isSome]
      exact ⟨kv, hmem, hk⟩
    obtain ⟨q, hq⟩ := Option.isSome_iff_exists.mp hs
    exact ⟨q.2, by simp [objGetStr, hq]⟩
  · intro hex
    obtain ⟨v, hv⟩ := hex
    unfold objGetStr at hv
    cases hf : m.find? (fun kv => kv.1 = Sc.s k) with
    | none => rw [hf] at hv; simp at hv
    | some q =>
      rw [List.any_eq_true]
      refine ⟨q, List.mem_of_find?_eq_some hf, ?_⟩
      have h2 := List.find?_some hf
      simpa using h2

/-- The structural part of the per-row output guarantee of the
enrichment loop: a successful run yields one output row per input row in
order, whose first three cells are the input row and whose last two
cells substitute the empty string for a missing annotation. -/
theorem enrichAux_spec (cache : List (String × Value)) (fuel : Nat) :
    ∀ (rows : List SchemaEnricher.R3) (stack : List (Nat × String))
      (out : List SchemaEnricher.R5),
    SchemaEnricher.enrichAux cache fuel stack rows = some out →
    out.map (fun r => (r.1, r.2.1, r.2.2.1)) = rows ∧
    ∀ r ∈ out, ∃ p d e,
      SchemaEnricher.enrich_row cache fuel p r.2.2.1 = some (d, e) ∧
      r.2.2.2.1 = (if e = nullV then strV "" else e) ∧
      r.2.2.2.2 = (if d = nullV then strV "" else d) := by
  intro rows
  induction rows with
  | nil =>
    intro stack out h
    simp only [SchemaEnricher.enrichAux, Option.some.injEq] at h
    subst h
    exact ⟨rfl, by simp⟩
  | cons row rest ih =>
    intro stack out h
    obtain ⟨level, key, value⟩ := row
    simp only [SchemaEnricher.enrichAux] at h
    rw [obind_eq_some] at h
    obtain ⟨de, hrow, h⟩ := h
    obtain ⟨d0, e0⟩ := de
    rw [obind_eq_some] at h
    obtain ⟨out', hrest, h⟩ := h
    have hout : ((level, key, value,
        (if e0 = nullV then strV "" else e0),
        (if d0 = nullV then strV "" else d0)) :: out') = out := by
      simpa using h
    subst hout
    obtain ⟨hmap, hmem⟩ := ih _ _ hrest
    refine ⟨by simp [hmap], ?_⟩
    intro r hr
    rcases List.mem_cons.mp hr with hr1 | hr2
    · subst hr1
      exact ⟨_, d0, e0, hrow, rfl, rfl⟩
    · exact hmem r hr2

/-- Wellformedness of one cache entry: the cached root is a schema
object whose definitions member (when present) is a map. -/
def wfEntry (p : String × Value) : Bool :=
  match p.2 with
  | .obj m =>
    match objGetStr m "definitions" with
    | some (.obj _) => true
    | some _ => false
    | none => true
  | _ => false

/-- Cache wellformedness from the specification's SchemaGraph data
model: every cached root is a schema object, and its definitions member
(when present) is a map from names to schema nodes. -/
def schemaWF (cache : List (String × Value)) : Bool := cache.all wfEntry

/-! ### Claim theorems for the schema tools -/

/-- C6 counterexample.  On a cyclic chain of external references, the
resolver does not return its unresolved-reference sentinel: its mutual
recursion with resolve_schema consumes a call budget of 100 without
returning (and, by resolver_cyc_none, any budget), which in Python is a
raised RecursionError rather than a returned sentinel. -/
theorem resolver_cycle_no_sentinel :
    SchemaResolver.resolve_ref cycCacheR 100 refA "" = none :=
  (resolver_cyc_none 100).1

/-- C6 amended.  The enricher's resolve_ref is a total function (no
operation in it can raise) and yields the (None, None) sentinel for any
reference that is neither internal nor relative; the resolver keeps URL
references as the original ref dict; but on a cyclic chain of external
references the resolver never returns at all (RecursionError in Python)
instead of producing a sentinel. -/
theorem resolve_ref_sentinel_or_divergence :
    (∀ (cache : List (String × Value)) (ref : String) (cur : Value),
      strStarts ref "#/" = false → strStarts ref "." = false →
      SchemaEnricher.resolve_ref cache ref cur = (nullV, nullV)) ∧
    (∀ (cache : List (String × Value)) (fuel : Nat) (ref b : String),
      (strStarts ref "http://" || strStarts ref "https://") = true →
      SchemaResolver.resolve_ref cache (fuel + 1) ref b =
        some (SchemaResolver.refObj ref)) ∧
    (∀ fuel, SchemaResolver.resolve_ref cycCacheR fuel refA "" = none) := by
  refine ⟨?_, ?_, fun fuel => (resolver_cyc_none fuel).1⟩
  · intro cache ref cur h1 h2
    rw [SchemaEnricher.resolve_ref, if_neg (by simp [h1]), if_neg (by simp [h2])]
  · intro cache fuel ref b h
    rw [SchemaResolver.resolve_ref, if_pos h]

/-- C6 amended, witness: a URL reference gets the sentinel in the
enricher and the original ref dict in the resolver; the cyclic chain
diverges. -/
theorem resolve_ref_sentinel_or_divergence_witness :
    SchemaEnricher.resolve_ref [] "http://example" (.obj []) = (nullV, nullV) ∧
    SchemaResolver.resolve_ref [] (3 + 1) "http://example" "" =
      some (SchemaResolver.refObj "http://example") ∧
    SchemaResolver.resolve_ref cycCacheR 7 refA "" = none :=
  ⟨resolve_ref_sentinel_or_divergence.1 [] "http://example" (.obj [])
      (by decide) (by decide),
    resolve_ref_sentinel_or_divergence.2.1 [] 3 "http://example" "" (by decide),
    resolve_ref_sentinel_or_divergence.2.2 7⟩

/-- C7 counterexample.  The enricher's follow_refs has no depth ceiling
at all: on a self-referential definition it is still running after 100
iterations (and, by follow_refs_cyc_none, after any number), while a
fixed ceiling of 20 would have stopped it long before. -/
theorem follow_refs_no_ceiling :
    SchemaEnricher.follow_refs cycCacheE 100 cycNode cacheVal = none :=
  follow_refs_cyc_none 100

/-- C7 amended.  The resolver's resolve_schema does return its input
unchanged once its depth argument exceeds 20; but that counter restarts
at zero on every hop of resolve_ref into a referenced schema, so the
resolver still recurses forever on a cyclic external chain, and the
enricher's follow_refs loop has no ceiling at all and never exits on a
self-referential reference. -/
theorem depth_guard_and_unbounded_follow :
    (∀ (cache : List (String × Value)) (fuel : Nat) (s : Value) (b : String)
      (d : Nat), 20 < d →
      SchemaResolver.resolve_schema cache (fuel + 1) s b d = some s) ∧
    (∀ fuel, SchemaEnricher.follow_refs cycCacheE fuel cycNode cacheVal = none) ∧
    (∀ fuel, SchemaResolver.resolve_ref cycCacheR fuel refA "" = none) := by
  refine ⟨?_, follow_refs_cyc_none, fun fuel => (resolver_cyc_none fuel).1⟩
  intro cache fuel s b d hd
  show (if 20 < d then some s else _) = some s
  rw [if_pos hd]

/-- C7 amended, witness: the depth guard fires at depth 21, and the two
unbounded loops are still running at a budget of 5. -/
theorem depth_guard_and_unbounded_follow_witness :
    SchemaResolver.resolve_schema [] (3 + 1) (strV "x") "" 21 = some (strV "x") ∧
    SchemaEnricher.follow_refs cycCacheE 5 cycNode cacheVal = none ∧
    SchemaResolver.resolve_ref cycCacheR 5 refA "" = none :=
  ⟨depth_guard_and_unbounded_follow.1 [] 3 (strV "x") "" 21 (by decide),
    depth_guard_and_unbounded_follow.2.1 5,
    depth_guard_and_unbounded_follow.2.2 5⟩

/-- C8 counterexample.  On a schema graph with a self-referential ref
reachable from a row's path, enrich_flattened_data produces no output at
all: it is still running after a call budget of 100 (and, by
enrich_cyc_none, after any budget), instead of emitting one output row
per input row. -/
theorem enrich_cyclic_no_output :
    SchemaEnricher.enrich_flattened_data cycCacheE 100 cycRows = none :=
  enrich_cyc_none 100

/-- C8 amended.  Whenever enrich_flattened_data returns (in particular
whenever every ref chain met during the lookups terminates), it returns
exactly one output row per input row, in order: the first three cells of
each output row are the input row, and the two appended annotation cells
come from the enrich_row lookup of the row's path with the empty string
substituted for a missing (None) description or example, never null and
never omitted.  On a graph with a reachable ref cycle, however, the
function never returns and produces no rows. -/
theorem enrich_one_output_per_row :
    (∀ (cache : List (String × Value)) (fuel : Nat)
      (rows : List SchemaEnricher.R3) (out : List SchemaEnricher.R5),
      SchemaEnricher.enrich_flattened_data cache fuel rows = some out →
      out.map (fun r => (r.1, r.2.1, r.2.2.1)) = rows ∧
      ∀ r ∈ out, ∃ p d e,
        SchemaEnricher.enrich_row cache fuel p r.2.2.1 = some (d, e) ∧
        r.2.2.2.1 = (if e = nullV then strV "" else e) ∧
        r.2.2.2.2 = (if d = nullV then strV "" else d)) ∧
    (∀ fuel, SchemaEnricher.enrich_flattened_data cycCacheE fuel cycRows = none) :=
  ⟨fun cache fuel rows out h => enrichAux_spec cache fuel rows [] out h,
    enrich_cyc_none⟩

/-- C8 amended, witness: a one-row run on an empty cache produces one
output row with empty-string annotations, and the cyclic graph produces
none. -/
theorem enrich_one_output_per_row_witness :
    ([(("1" : String), ("a" : String), Sc.s "x", strV "", strV "")].map
        (fun r => (r.1, r.2.1, r.2.2.1)) = [(("1" : String), ("a" : String), Sc.s "x")]) ∧
    (∀ r ∈ [(("1" : String), ("a" : String), Sc.s "x", strV "", strV "")], ∃ p d e,
      SchemaEnricher.enrich_row [] 1 p r.2.2.1 = some (d, e) ∧
      r.2.2.2.1 = (if e = nullV then strV "" else e) ∧
      r.2.2.2.2 = (if d = nullV then strV "" else d)) ∧
    SchemaEnricher.enrich_flattened_data cycCacheE 3 cycRows = none :=
  ⟨(enrich_one_output_per_row.1 [] 1 [("1", "a", Sc.s "x")]
      [("1", "a", Sc.s "x", strV "", strV "")] (by decide)).1,
    (enrich_one_output_per_row.1 [] 1 [("1", "a", Sc.s "x")]
      [("1", "a", Sc.s "x", strV "", strV "")] (by decide)).2,
    enrich_one_output_per_row.2 3⟩

/-- C10.  For every wellformed schema graph (cached roots are objects
whose definitions member, if present, is a map, as the SchemaGraph data
model prescribes) and every value, enrich_row on a key path with exactly
one segment returns (None, None) -- even when the matching top-level
definition itself carries a description or example, since the
field-path walk starts only at the second segment. -/
theorem single_segment_no_annotations :
    ∀ (cache : List (String × Value)) (fuel : Nat) (keyPath : String) (v : Sc),
    schemaWF cache = true →
    ((splitCh '.' keyPath).filter (fun p => p ≠ "")).length = 1 →
    SchemaEnricher.enrich_row cache fuel keyPath v = some (nullV, nullV) := by
  intro cache fuel keyPath v hwf hlen
  have hne : ¬ (keyPath = "") := by
    intro h0
    subst h0
    simp [splitCh, splitChL] at hlen
  obtain ⟨top, hparts⟩ := List.length_eq_one.mp hlen
  rw [SchemaEnricher.enrich_row, if_neg hne, hparts]
  cases hLook : lookupStr cache top with
  | none => simp [hLook]
  | some schema =>
    have hfind : ∃ q ∈ cache, q.2 = schema := by
      unfold lookupStr at hLook
      cases hf : cache.find? (fun kv => kv.1 = top) with
      | none => rw [hf] at hLook; simp at hLook
      | some q =>
        rw [hf] at hLook
        simp at hLook
        exact ⟨q, List.mem_of_find?_eq_some hf, hLook⟩
    obtain ⟨q, hqmem, hq2⟩ := hfind
    obtain ⟨qn, qv⟩ := q
    simp only at hq2
    subst hq2
    have hwfq := (List.all_eq_true.mp hwf) (qn, qv) hqmem
    cases qv with
    | sc x => simp [wfEntry] at hwfq
    | list l => simp [wfEntry] at hwfq
    | obj m =>
      cases hd : objGetStr m "definitions" with
      | none =>
        have hany : (m.any (fun kv => kv.1 = Sc.s "definitions")) = false := by
          rw [Bool.eq_false_iff]
          intro hh
          obtain ⟨w, hw⟩ := (any_key_iff m "definitions").mp hh
          rw [hd] at hw
          cases hw
        simp [hLook, pyIn, obind_some, hany]
      | some d =>
        simp only [wfEntry, hd] at hwfq
        cases d with
        | sc x => simp at hwfq
        | list l => simp at hwfq
        | obj mm =>
          have hany : (m.any (fun kv => kv.1 = Sc.s "definitions")) = true :=
            (any_key_iff m "definitions").mpr ⟨.obj mm, hd⟩
          by_cases hany2 : (mm.any (fun kv => kv.1 = Sc.s (pascalOf top))) = true
          · obtain ⟨mainDef, hmain⟩ := (any_key_iff mm (pascalOf top)).mp hany2
            cases mainDef with
            | sc x =>
              cases x with
              | null => simp [hLook, pyIn, obind_some, hany, hany2, pyGetItem, hd, hmain]
              | s s' => simp [hLook, pyIn, obind_some, hany, hany2, pyGetItem, hd, hmain,
                  SchemaEnricher.get_field_metadata]
              | i n => simp [hLook, pyIn, obind_some, hany, hany2, pyGetItem, hd, hmain,
                  SchemaEnricher.get_field_metadata]
              | b bv => simp [hLook, pyIn, obind_some, hany, hany2, pyGetItem, hd, hmain,
                  SchemaEnricher.get_field_metadata]
            | list l => simp [hLook, pyIn, obind_some, hany, hany2, pyGetItem, hd, hmain,
                SchemaEnricher.get_field_metadata]
            | obj mo => simp [hLook, pyIn, obind_some, hany, hany2, pyGetItem, hd, hmain,
                SchemaEnricher.get_field_metadata]
          · have hany2f : (mm.any (fun kv => kv.1 = Sc.s (pascalOf top))) = false :=
              Bool.eq_false_iff.mpr hany2
            simp [hLook, pyIn, obind_some, hany, hany2f, pyGetItem, hd]

/-- C10 witness: a wellformed cache whose top-level definition carries a
description and an example still yields (None, None) for the one-segment
path. -/
theorem single_segment_no_annotations_witness :
    SchemaEnricher.enrich_row
      [("x", .obj [(.s "definitions", .obj [(.s "X", .obj [
        (.s "description", strV "a top-level description"),
        (.s "examples", .list [strV "an example"])])])])]
      5 "x" nestedSc = some (nullV, nullV) :=
  single_segment_no_annotations
    [("x", .obj [(.s "definitions", .obj [(.s "X", .obj [
      (.s "description", strV "a top-level description"),
      (.s "examples", .list [strV "an example"])])])])]
    5 "x" nestedSc (by decide) (by decide)

end MDS
